import Mathlib

/-!
Verification of the record persistence and query engine of `wallet.py`
(class `FinanceManager`).

Modelling conventions:
* Python strings are `List Char`; Python `str.strip` (over the full CPython
  whitespace set), `str.split('---\n')`, `str.split('\n')` and
  `str.split(': ', 1)` are modelled character by character below (`pyStrip`,
  `splitDashes`, `splitNl`, `splitColonOnce`).  Reading the backing file in
  text mode applies universal-newline translation (`universalNewlines`).
* Python `float` values are modelled as rationals `ℚ`.  Every value of the
  Python type is a dyadic rational, hence has a finite decimal expansion;
  `amountOk` states that a rational is such a value.  `str(float)` is
  modelled by `showAmount` (shortest decimal form, always with a decimal
  point, as CPython prints floats of moderate magnitude) and `float(str)`
  by `parseFloat` (optional surrounding whitespace, optional sign, decimal
  digits with an optional fractional part; the exotic inputs CPython also
  accepts, such as exponents or `inf`, never arise in this development).
* The backing file is `Option (List Char)`: `none` models a nonexistent
  file, `some content` its full textual content.  A `FinanceManager` holds
  the in-memory record list and the backing file it writes to.
* Mutating methods become functions from the manager state to the new
  state; `delete_record` additionally returns `some message` when the
  Python code raises `IndexError` (in which case the state is unchanged,
  exactly as an exception leaves the Python object untouched).
-/

/-- The whitespace characters Python `str.strip` removes: exactly the code
points for which CPython `str.isspace` holds (ASCII whitespace, the four
information separators, NEL, no-break space, Ogham space mark, the en/em
space block, the line and paragraph separators, narrow and mathematical
spaces, and the ideographic space). -/
def isPySpace (c : Char) : Bool :=
  c = '\x09' || c = '\x0A' || c = '\x0B' || c = '\x0C' || c = '\x0D' ||
  c = '\x1C' || c = '\x1D' || c = '\x1E' || c = '\x1F' || c = ' ' ||
  c = '\x85' || c = '\xA0' || c = '\u1680' ||
  c = '\u2000' || c = '\u2001' || c = '\u2002' || c = '\u2003' || c = '\u2004' ||
  c = '\u2005' || c = '\u2006' || c = '\u2007' || c = '\u2008' || c = '\u2009' ||
  c = '\u200A' || c = '\u2028' || c = '\u2029' || c = '\u202F' || c = '\u205F' ||
  c = '\u3000'

/-- Model of Python `str.lstrip()`. -/
def pyStripLeft (l : List Char) : List Char := l.dropWhile isPySpace

/-- Model of Python `str.rstrip()`. -/
def pyStripRight (l : List Char) : List Char := (l.reverse.dropWhile isPySpace).reverse

/-- Model of Python `str.strip()`. -/
def pyStrip (l : List Char) : List Char := pyStripRight (pyStripLeft l)

/-- Prepend a character to the first chunk of a split result. -/
def consHead (c : Char) : List (List Char) → List (List Char)
  | h :: t => (c :: h) :: t
  | [] => [[c]]

/-- Model of Python `content.split('---\n')`: split on each leftmost
non-overlapping occurrence of the four-character separator. -/
def splitDashes : List Char → List (List Char)
  | [] => [[]]
  | '-' :: '-' :: '-' :: '\n' :: rest => [] :: splitDashes rest
  | c :: rest => consHead c (splitDashes rest)

/-- Model of Python `entry.split('\n')`. -/
def splitNl : List Char → List (List Char)
  | [] => [[]]
  | '\n' :: rest => [] :: splitNl rest
  | c :: rest => consHead c (splitNl rest)

/-- Model of Python `line.split(': ', 1)`: `some (key, value)` when the
two-character separator occurs (split at its first occurrence), `none`
when it does not (the Python list then has length 1). -/
def splitColonOnce : List Char → Option (List Char × List Char)
  | [] => none
  | ':' :: ' ' :: rest => some ([], rest)
  | c :: rest =>
    match splitColonOnce rest with
    | some (k, v) => some (c :: k, v)
    | none => none

/-- Numeric value of a decimal digit character. -/
def charVal (c : Char) : ℕ := c.toNat - 48

/-- Value of a big-endian list of decimal digit characters. -/
def natOfDigits (l : List Char) : ℕ := l.foldl (fun a c => 10 * a + charVal c) 0

/-- Model of Python `float(s)` on the inputs this program can produce:
optional surrounding whitespace, an optional sign, then decimal digits with
an optional fractional part (at least one digit overall).  Returns `none`
exactly when CPython would raise `ValueError` on such shapes.  Split into
sign and body stages below; `parseFloat` composes them. -/
def parseFloatSign : List Char → ℤ × List Char
  | '-' :: r => (-1, r)
  | '+' :: r => (1, r)
  | r => (1, r)

/-- The digit part of the Python `float` parser: decimal digits with an
optional fractional part, rejecting anything else. -/
def parseFloatBody (sign : ℤ) (t : List Char) : Option ℚ :=
  match t.dropWhile Char.isDigit with
  | [] =>
    if t.takeWhile Char.isDigit = [] then none
    else some (Rat.divInt (sign * natOfDigits (t.takeWhile Char.isDigit)) 1)
  | '.' :: r2 =>
    if r2.dropWhile Char.isDigit = [] ∧
        (t.takeWhile Char.isDigit ≠ [] ∨ r2.takeWhile Char.isDigit ≠ []) then
      some (Rat.divInt
        (sign * (natOfDigits (t.takeWhile Char.isDigit) * 10 ^ (r2.takeWhile Char.isDigit).length +
          natOfDigits (r2.takeWhile Char.isDigit)))
        (10 ^ (r2.takeWhile Char.isDigit).length))
    else none
  | _ => none

def parseFloat (s : List Char) : Option ℚ :=
  parseFloatBody (parseFloatSign (pyStrip s)).1 (parseFloatSign (pyStrip s)).2

/-- The decimal digit character for a value below ten. -/
def digitChar (d : ℕ) : Char :=
  match d with
  | 0 => '0' | 1 => '1' | 2 => '2' | 3 => '3' | 4 => '4'
  | 5 => '5' | 6 => '6' | 7 => '7' | 8 => '8' | _ => '9'

/-- Big-endian decimal digits of a positive natural (empty for zero);
`fuel ≥ n` makes the recursion structural. -/
def natToDigitsAux : ℕ → ℕ → List Char
  | 0, _ => []
  | f + 1, n => if n = 0 then [] else natToDigitsAux f (n / 10) ++ [digitChar (n % 10)]

/-- Big-endian decimal digits of a natural number. -/
def natToDigits (n : ℕ) : List Char := if n = 0 then ['0'] else natToDigitsAux n n

/-- Left-pad a digit string with zeros to the given length. -/
def padZeros (k : ℕ) (s : List Char) : List Char := List.replicate (k - s.length) '0' ++ s

/-- Search for the least `k ≤ k₀ + fuel` with `d ∣ 10 ^ k`, starting at `k₀`. -/
def tenPowExpAux : ℕ → ℕ → ℕ → Option ℕ
  | 0, d, k => if 10 ^ k % d = 0 then some k else none
  | f + 1, d, k => if 10 ^ k % d = 0 then some k else tenPowExpAux f d (k + 1)

/-- Least `k` with `d ∣ 10 ^ k`, when one exists (fuel `d` always suffices). -/
def tenPowExp (d : ℕ) : Option ℕ := tenPowExpAux d d 0

/-- Model of Python `str(x)` for a float `x`, as interpolated by
`save_records` via `f'Сумма: {record.amount}'`: the shortest decimal form,
always carrying a decimal point (`str(5.0) = '5.0'`, `str(-0.5) = '-0.5'`).
`renderDigits` places the decimal point inside the padded digit string of
the mantissa; the `NaN` fallback of `showAmount` is never reached for
float-representable amounts. -/
def renderDigits (mn k : ℕ) : List Char :=
  if k = 0 then natToDigits mn ++ ['.', '0']
  else
    (padZeros (k + 1) (natToDigits mn)).take ((padZeros (k + 1) (natToDigits mn)).length - k) ++
      '.' :: (padZeros (k + 1) (natToDigits mn)).drop ((padZeros (k + 1) (natToDigits mn)).length - k)

def showAmount (q : ℚ) : List Char :=
  match tenPowExp q.den with
  | none => ['N', 'a', 'N']
  | some k =>
    (if q.num < 0 then ['-'] else []) ++ renderDigits (q.num.natAbs * (10 ^ k / q.den)) k

/-- One wallet entry (`FinanceRecord` in `wallet.py`). -/
structure FinanceRecord where
  date : List Char
  category : List Char
  amount : ℚ
  description : List Char
deriving DecidableEq

/-- The literal field label `Дата` (date). -/
def keyDate : List Char := ("Дата").data

/-- The literal field label `Категория` (category). -/
def keyCategory : List Char := ("Категория").data

/-- The literal field label `Сумма` (amount). -/
def keyAmount : List Char := ("Сумма").data

/-- The literal field label `Описание` (description). -/
def keyDescription : List Char := ("Описание").data

/-- The block delimiter line `---`. -/
def dashesLine : List Char := ("---").data

/-- The reserved income category literal `Доход`. -/
def incomeCategory : List Char := ("Доход").data

/-- The reserved expense category literal `Расход`. -/
def expenseCategory : List Char := ("Расход").data

/-- One iteration of the per-line loop of `parse_records`: strip the line,
skip it when it is empty or `---`, record `key ↦ value` when it contains
`': '` (later assignments shadow earlier ones), and otherwise merely report
it (diagnostics are not modelled). -/
def kvLine (dict : List (List Char × List Char)) (line : List Char) :
    List (List Char × List Char) :=
  if pyStrip line = dashesLine ∨ pyStrip line = [] then dict
  else
    match splitColonOnce (pyStrip line) with
    | some (k, v) => (k, v) :: dict
    | none => dict

/-- Lookup in the parse dictionary (first hit = most recent assignment). -/
def lookupKey (dict : List (List Char × List Char)) (k : List Char) : Option (List Char) :=
  match dict with
  | [] => none
  | (k2, v) :: rest => if k2 = k then some v else lookupKey rest k

/-- The dictionary an entry's lines fold into (the `data` dict of
`parse_records`); `parseEntry` below is the body of the per-entry loop: an
empty entry is skipped (`continue`), otherwise a record is built from the
dictionary. -/
def entryDict (entry : List Char) : List (List Char × List Char) :=
  (splitNl (pyStrip entry)).foldl kvLine []

/-- Build a record from the dictionary of an entry, `none` modelling the
caught `KeyError` (a required label is absent) or `ValueError` (`float`
failed). -/
def buildRecord (dict : List (List Char × List Char)) : Option FinanceRecord :=
  match lookupKey dict keyDate, lookupKey dict keyCategory,
      lookupKey dict keyAmount, lookupKey dict keyDescription with
  | some d, some c, some a, some ds =>
    match parseFloat a with
    | some q => some ⟨d, c, q, ds⟩
    | none => none
  | _, _, _, _ => none

def parseEntry (entry : List Char) : Option FinanceRecord :=
  if pyStrip entry = [] then none
  else buildRecord (entryDict entry)

/-- Model of `FinanceManager.parse_records`: strip the content, split it on
`'---\n'` and fold the per-entry loop, appending each successfully parsed
record. -/
def parse_records (content : List Char) : List FinanceRecord :=
  (splitDashes (pyStrip content)).foldl
    (fun recs e =>
      match parseEntry e with
      | some r => recs ++ [r]
      | none => recs) []

/-- One `Key: Value` line as written by `save_records`. -/
def serializeLine (k v : List Char) : List Char := k ++ ':' :: ' ' :: v ++ ['\n']

/-- The block `save_records` writes for one record: the four labelled lines
in fixed order, then the `---` delimiter line. -/
def serializeRecord (r : FinanceRecord) : List Char :=
  serializeLine keyDate r.date ++ serializeLine keyCategory r.category ++
    serializeLine keyAmount (showAmount r.amount) ++
    serializeLine keyDescription r.description ++ dashesLine ++ ['\n']

/-- Model of `FinanceManager.save_records`: the file content produced by the
sequence of `file.write` calls. -/
def serializeRecords (rs : List FinanceRecord) : List Char :=
  rs.foldl (fun acc r => acc ++ serializeRecord r) []

/-- Manager state: the in-memory record list and the backing file
(`none` = the file does not exist). -/
structure FinanceManager where
  records : List FinanceRecord
  file : Option (List Char)
deriving DecidableEq

/-- Python text-mode reading translates line endings (universal newlines):
each `\r\n` pair and each lone `\r` in the file becomes `\n` in the string
the program sees. -/
def universalNewlines : List Char → List Char
  | [] => []
  | '\r' :: '\n' :: rest => '\n' :: universalNewlines rest
  | '\r' :: rest => '\n' :: universalNewlines rest
  | c :: rest => c :: universalNewlines rest

/-- Model of `FinanceManager.load_records`: an absent file yields `[]`,
otherwise the content is read in text mode (universal-newline translation)
and the stripped result is parsed. -/
def load_records (file : Option (List Char)) : List FinanceRecord :=
  match file with
  | none => []
  | some content => parse_records (pyStrip (universalNewlines content))

/-- Model of `FinanceManager.__init__`: load the records from the file. -/
def initManager (file : Option (List Char)) : FinanceManager :=
  ⟨load_records file, file⟩

/-- Model of `FinanceManager.save_records` as a state transformer: rewrite
the backing file from the in-memory list. -/
def save_records (m : FinanceManager) : FinanceManager :=
  { m with file := some (serializeRecords m.records) }

/-- Model of `FinanceManager.add_record`: append, then save. -/
def add_record (m : FinanceManager) (r : FinanceRecord) : FinanceManager :=
  save_records { m with records := m.records ++ [r] }

/-- Model of `FinanceManager.edit_record`: replace the record at a valid
zero-based index and save; otherwise do nothing. -/
def edit_record (m : FinanceManager) (index : ℤ) (r : FinanceRecord) : FinanceManager :=
  if 0 ≤ index ∧ index < m.records.length then
    save_records { m with records := m.records.set index.toNat r }
  else m

/-- The `IndexError` message raised by `delete_record`. -/
def deleteIndexError : List Char := ("Запись с таким индексом не существует.").data

/-- Model of `FinanceManager.delete_record`: remove the record at a valid
zero-based index and save; otherwise raise `IndexError` (returned as
`some message`, the state unchanged). -/
def delete_record (m : FinanceManager) (index : ℤ) : FinanceManager × Option (List Char) :=
  if 0 ≤ index ∧ index < m.records.length then
    (save_records { m with records := m.records.eraseIdx index.toNat }, none)
  else (m, some deleteIndexError)

/-- The conjunction of the three optional exact-equality filters of
`search_records` (an absent filter matches everything). -/
def matchesFilters (category date : Option (List Char)) (amount : Option ℚ)
    (r : FinanceRecord) : Bool :=
  (match category with
   | none => true
   | some c => r.category == c) &&
  (match date with
   | none => true
   | some d => r.date == d) &&
  (match amount with
   | none => true
   | some a => r.amount == a)

/-- Model of `FinanceManager.search_records`: the loop appending every
record that matches all provided filters. -/
def search_records (records : List FinanceRecord) (category date : Option (List Char))
    (amount : Option ℚ) : List FinanceRecord :=
  records.foldl
    (fun result r => if matchesFilters category date amount r then result ++ [r] else result)
    []

/-- Model of `FinanceManager.calculate_finances`: total income is the sum of
the amounts of the records whose category is exactly `Доход`, total expense
likewise for `Расход`, and the balance is their difference.  The two
`sum(...)` generator expressions are left folds over the record list. -/
def calculate_finances (records : List FinanceRecord) : ℚ × ℚ × ℚ :=
  let total_income : ℚ :=
    records.foldl (fun acc r => if r.category == incomeCategory then acc + r.amount else acc) 0
  let total_expense : ℚ :=
    records.foldl (fun acc r => if r.category == expenseCategory then acc + r.amount else acc) 0
  (total_income - total_expense, total_income, total_expense)

/-- Prepend a string to the first chunk of a split result (used to state how
the splitters act on an appended separator-free line). -/
def prependHead (p : List Char) : List (List Char) → List (List Char)
  | h :: t => (p ++ h) :: t
  | [] => [p]

/-- The four labelled lines of the block `save_records` writes for a record,
without the final `---` delimiter line. -/
def innerOf (r : FinanceRecord) : List Char :=
  serializeLine keyDate r.date ++ serializeLine keyCategory r.category ++
    serializeLine keyAmount (showAmount r.amount) ++ serializeLine keyDescription r.description

/-- A hand-written file block in the on-disk format: the four labelled
`Key: Value` lines (with an arbitrary amount string) followed by the
delimiter line, as `parse_records` receives them from a file. -/
def mkLines (d c a ds : List Char) : List Char :=
  serializeLine keyDate d ++ (serializeLine keyCategory c ++
    (serializeLine keyAmount a ++ serializeLine keyDescription ds))

/-- A complete hand-written block, delimiter included. -/
def mkBlock (d c a ds : List Char) : List Char := mkLines d c a ds ++ (dashesLine ++ ['\n'])

/-- A rational is the value of a Python float printed as a finite decimal:
its denominator divides a power of ten. -/
def amountOk (q : ℚ) : Bool := (tenPowExp q.den).isSome

/-- A string field value that survives the save/load round trip unchanged:
nonempty, free of newlines and carriage returns (text-mode reading turns a
`\r` into `\n`, splitting the line), no trailing whitespace (in Python's
Unicode sense), and not ending in `---` (which would collide with the block
separator). -/
def fieldOk (v : List Char) : Bool :=
  !v.isEmpty && !v.contains '\n' && !v.contains '\r' && (pyStripRight v == v) &&
    !dashesLine.isSuffixOf v

/-- A record every field of which survives the save/load round trip. -/
def recordOk (r : FinanceRecord) : Bool :=
  fieldOk r.date && fieldOk r.category && fieldOk r.description && amountOk r.amount

/-- A string field that is either round-trip clean or empty. -/
def fieldOkOrEmpty (v : List Char) : Bool := fieldOk v || v.isEmpty

/-- A record whose string fields are each round-trip clean or empty, with a
float-representable amount. -/
def recordOkOrEmpty (r : FinanceRecord) : Bool :=
  fieldOkOrEmpty r.date && fieldOkOrEmpty r.category && fieldOkOrEmpty r.description &&
    amountOk r.amount

/-- A record one of whose string fields is the empty string. -/
def hasEmptyField (r : FinanceRecord) : Bool :=
  r.date.isEmpty || r.category.isEmpty || r.description.isEmpty

/-- The record-appending loop of `search_records` is a filter. -/
theorem foldl_append_if (p : FinanceRecord → Bool) (l : List FinanceRecord)
    (acc : List FinanceRecord) :
    l.foldl (fun res r => if p r then res ++ [r] else res) acc = acc ++ l.filter p := by
  induction l generalizing acc with
  | nil => simp
  | cons x xs ih =>
    by_cases h : p x
    · simp [h, ih, List.filter_cons]
    · simp [h, ih, List.filter_cons]

/-- The conditional accumulation of `calculate_finances` sums the amounts of
the records satisfying the condition. -/
theorem foldl_add_if (p : FinanceRecord → Bool) (l : List FinanceRecord) (a : ℚ) :
    l.foldl (fun acc r => if p r then acc + r.amount else acc) a =
      a + ((l.filter p).map FinanceRecord.amount).sum := by
  induction l generalizing a with
  | nil => simp
  | cons x xs ih =>
    by_cases h : p x
    · simp [h, ih, List.filter_cons]; ring
    · simp [h, ih, List.filter_cons]

/-- The record-appending loop of `parse_records` is a `filterMap`. -/
theorem foldl_append_filterMap (l : List (List Char)) (acc : List FinanceRecord) :
    l.foldl
      (fun recs e =>
        match parseEntry e with
        | some r => recs ++ [r]
        | none => recs) acc = acc ++ l.filterMap parseEntry := by
  induction l generalizing acc with
  | nil => simp
  | cons x xs ih =>
    cases h : parseEntry x with
    | none => simp [h, ih, List.filterMap_cons]
    | some r => simp [h, ih, List.filterMap_cons]

/-- C1: `calculate_finances` returns total income equal to the sum of the
amounts of exactly the records whose category is the reserved income
literal, total expense likewise for the expense literal, and balance equal
to income minus expense; other categories contribute to neither sum.  The
reserved literals of this implementation are `Доход` and `Расход` (the
spec's "Income" / "Expense"); in particular the three-record example with
an unrelated category yields balance 60, income 100, expense 40. -/
theorem calculate_finances_spec :
    (∀ records : List FinanceRecord,
      calculate_finances records =
        (((records.filter fun r => r.category == incomeCategory).map FinanceRecord.amount).sum -
          ((records.filter fun r => r.category == expenseCategory).map FinanceRecord.amount).sum,
          ((records.filter fun r => r.category == incomeCategory).map FinanceRecord.amount).sum,
          ((records.filter fun r => r.category == expenseCategory).map FinanceRecord.amount).sum)) ∧
    calculate_finances
        [⟨("2024-01-01").data, incomeCategory, 100, []⟩,
         ⟨("2024-01-02").data, expenseCategory, 40, []⟩,
         ⟨("2024-01-03").data, ("Прочее").data, 999, []⟩] = (60, 100, 40) := by
  have key : ∀ records : List FinanceRecord,
      calculate_finances records =
        (((records.filter fun r => r.category == incomeCategory).map FinanceRecord.amount).sum -
          ((records.filter fun r => r.category == expenseCategory).map FinanceRecord.amount).sum,
          ((records.filter fun r => r.category == incomeCategory).map FinanceRecord.amount).sum,
          ((records.filter fun r => r.category == expenseCategory).map FinanceRecord.amount).sum) := by
    intro records
    unfold calculate_finances
    rw [foldl_add_if, foldl_add_if]
    norm_num
  refine ⟨key, ?_⟩
  rw [key]
  simp only [List.filter_cons, List.filter_nil,
    show (incomeCategory == incomeCategory) = true from by decide,
    show (expenseCategory == incomeCategory) = false from by decide,
    show ((("Прочее").data) == incomeCategory) = false from by decide,
    show (incomeCategory == expenseCategory) = false from by decide,
    show (expenseCategory == expenseCategory) = true from by decide,
    show ((("Прочее").data) == expenseCategory) = false from by decide]
  norm_num

/-- C4: `search_records` returns exactly the records matching all provided
filters by exact equality (category and date as strings, amount
numerically), an absent filter matching everything, in the original order;
with no filters it returns all records, and an empty result is an ordinary
value of the function. -/
theorem search_records_spec :
    ∀ (records : List FinanceRecord) (category date : Option (List Char)) (amount : Option ℚ),
      search_records records category date amount =
        records.filter (matchesFilters category date amount) ∧
      search_records records none none none = records := by
  intro records category date amount
  constructor
  · unfold search_records
    rw [foldl_append_if]
    simp
  · unfold search_records
    rw [foldl_append_if]
    simp [matchesFilters]

/-- C5: `delete_record` with an index outside `[0, length)` raises
`IndexError` and leaves the record list and the backing file unchanged;
with an index inside the range it removes the record at that zero-based
position and saves the file. -/
theorem delete_record_spec :
    ∀ (m : FinanceManager) (i : ℤ),
      (¬(0 ≤ i ∧ i < m.records.length) →
        delete_record m i = (m, some deleteIndexError)) ∧
      ((0 ≤ i ∧ i < m.records.length) →
        delete_record m i =
          ({ records := m.records.eraseIdx i.toNat,
             file := some (serializeRecords (m.records.eraseIdx i.toNat)) }, none)) := by
  intro m i
  constructor
  · intro h
    simp [delete_record, h]
  · intro h
    simp [delete_record, h, save_records]

/-- Witness for C5 at a one-record store: index `-1` and index `1` (the
length) raise and change nothing, index `0` deletes the record and saves. -/
theorem delete_record_spec_witness :
    delete_record ⟨[⟨[], [], 0, []⟩], none⟩ (-1) =
        (⟨[⟨[], [], 0, []⟩], none⟩, some deleteIndexError) ∧
      delete_record ⟨[⟨[], [], 0, []⟩], none⟩ 1 =
        (⟨[⟨[], [], 0, []⟩], none⟩, some deleteIndexError) ∧
      delete_record ⟨[⟨[], [], 0, []⟩], none⟩ 0 = (⟨[], some (serializeRecords [])⟩, none) := by
  refine ⟨?_, ?_, ?_⟩
  · exact (delete_record_spec ⟨[⟨[], [], 0, []⟩], none⟩ (-1)).1 (by decide)
  · exact (delete_record_spec ⟨[⟨[], [], 0, []⟩], none⟩ 1).1 (by decide)
  · exact (delete_record_spec ⟨[⟨[], [], 0, []⟩], none⟩ 0).2 (by decide)

/-- C6: `edit_record` with an index outside `[0, length)` is a silent no-op
(the model has no failure channel for it, matching the absence of any raise
in the source): the record list and the backing file are both unchanged;
with an index inside the range it replaces the record at that zero-based
position and saves the file. -/
theorem edit_record_spec :
    ∀ (m : FinanceManager) (i : ℤ) (r : FinanceRecord),
      (¬(0 ≤ i ∧ i < m.records.length) → edit_record m i r = m) ∧
      ((0 ≤ i ∧ i < m.records.length) →
        edit_record m i r =
          { records := m.records.set i.toNat r,
            file := some (serializeRecords (m.records.set i.toNat r)) }) := by
  intro m i r
  constructor
  · intro h
    simp [edit_record, h]
  · intro h
    simp [edit_record, h, save_records]

/-- Witness for C6 at a one-record store: editing index `-1` and index `1`
changes nothing, editing index `0` replaces the record and saves. -/
theorem edit_record_spec_witness :
    edit_record ⟨[⟨[], [], 0, []⟩], none⟩ (-1) ⟨[], [], 1, []⟩ = ⟨[⟨[], [], 0, []⟩], none⟩ ∧
      edit_record ⟨[⟨[], [], 0, []⟩], none⟩ 1 ⟨[], [], 1, []⟩ = ⟨[⟨[], [], 0, []⟩], none⟩ ∧
      edit_record ⟨[⟨[], [], 0, []⟩], none⟩ 0 ⟨[], [], 1, []⟩ =
        ⟨[⟨[], [], 1, []⟩], some (serializeRecords [⟨[], [], 1, []⟩])⟩ := by
  refine ⟨?_, ?_, ?_⟩
  · exact (edit_record_spec ⟨[⟨[], [], 0, []⟩], none⟩ (-1) ⟨[], [], 1, []⟩).1 (by decide)
  · exact (edit_record_spec ⟨[⟨[], [], 0, []⟩], none⟩ 1 ⟨[], [], 1, []⟩).1 (by decide)
  · exact (edit_record_spec ⟨[⟨[], [], 0, []⟩], none⟩ 0 ⟨[], [], 1, []⟩).2 (by decide)

/-- C8: when the backing file does not exist, loading yields the empty
record sequence (and no error: `load_records` is total), and a manager
constructed on such a path starts with no records. -/
theorem load_records_missing_file :
    load_records none = [] ∧ initManager none = ⟨[], none⟩ :=
  ⟨rfl, rfl⟩

/- ## Structure of the splitters -/

theorem consHead_prependHead (c : Char) (p : List Char) (s : List (List Char)) :
    consHead c (prependHead p s) = prependHead (c :: p) s := by
  cases s <;> rfl

theorem prependHead_cons (p : List Char) (h : List Char) (t : List (List Char)) :
    prependHead p (h :: t) = (p ++ h) :: t := rfl

theorem splitDashes_ne_nil (l : List Char) : splitDashes l ≠ [] := by
  induction l with
  | nil => simp [splitDashes]
  | cons c rest ih =>
    rw [splitDashes.eq_def]
    split
    · simp
    · simp
    · rename_i c2 r2 hne heq
      cases heq
      unfold consHead
      split
      · simp
      · simp

theorem splitDashes_sep (rest : List Char) :
    splitDashes ('-' :: '-' :: '-' :: '\n' :: rest) = [] :: splitDashes rest := rfl

theorem splitDashes_cons (c : Char) (l : List Char)
    (h : List.take 4 (c :: l) ≠ ['-', '-', '-', '\n']) :
    splitDashes (c :: l) = consHead c (splitDashes l) := by
  rw [splitDashes.eq_def]
  split
  · simp_all
  · rename_i rest heq
    exact absurd (by rw [heq]; rfl) h
  · rename_i c2 r2 hne heq
    cases heq
    rfl

/-- Splitting on `'---\n'` passes over a full line that contains no newline
and does not end in `---`, keeping it (with its terminating newline) in the
current chunk. -/
theorem splitDashes_line (line rest : List Char) (h1 : '\n' ∉ line)
    (h2 : ¬ dashesLine <:+ line) :
    splitDashes (line ++ '\n' :: rest) = prependHead (line ++ ['\n']) (splitDashes rest) := by
  induction line with
  | nil =>
    rw [List.nil_append, splitDashes_cons '\n' rest (by intro hx; cases rest with
      | nil => simp at hx
      | cons a t => simp at hx)]
    cases hsd : splitDashes rest with
    | nil => exact absurd hsd (splitDashes_ne_nil rest)
    | cons h t => rfl
  | cons c line ih =>
    have h1' : '\n' ∉ line := fun hx => h1 (List.mem_cons_of_mem c hx)
    have h2' : ¬ dashesLine <:+ line := fun hx => h2 (hx.trans (List.suffix_cons c line))
    have hc : c ≠ '\n' := fun hx => h1 (hx ▸ List.mem_cons_self c line)
    rw [List.cons_append, splitDashes_cons c (line ++ '\n' :: rest) ?_]
    · rw [ih h1' h2', List.cons_append, consHead_prependHead]
    · -- the four-character window at this position is not the separator
      intro hx
      rcases line with _ | ⟨a, _ | ⟨b, _ | ⟨d, tl⟩⟩⟩
      · simp at hx
      · simp at hx
      · simp at hx
        exact h2 (by rw [hx.1, hx.2.1, hx.2.2]; exact List.suffix_rfl)
      · simp at hx
        exact h1' (by simp [hx.2.2.2])

theorem splitNl_ne_nil (l : List Char) : splitNl l ≠ [] := by
  induction l with
  | nil => simp [splitNl]
  | cons c rest ih =>
    rw [splitNl.eq_def]
    split
    · simp
    · simp
    · rename_i c2 r2 hne heq
      cases heq
      unfold consHead
      split
      · simp
      · simp

theorem splitNl_cons (c : Char) (l : List Char) (h : c ≠ '\n') :
    splitNl (c :: l) = consHead c (splitNl l) := by
  rw [splitNl.eq_def]
  split
  · simp_all
  · rename_i rest heq
    cases heq
    exact absurd rfl h
  · rename_i c2 r2 hne heq
    cases heq
    rfl

/-- Splitting on `'\n'` takes off a newline-free line. -/
theorem splitNl_line (line rest : List Char) (h : '\n' ∉ line) :
    splitNl (line ++ '\n' :: rest) = line :: splitNl rest := by
  induction line with
  | nil => rfl
  | cons c line ih =>
    have h' : '\n' ∉ line := fun hx => h (List.mem_cons_of_mem c hx)
    have hc : c ≠ '\n' := fun hx => h (hx ▸ List.mem_cons_self c line)
    rw [List.cons_append, splitNl_cons c _ hc, ih h', consHead]

/-- A newline-free string is a single chunk for `splitNl`. -/
theorem splitNl_nosep (l : List Char) (h : '\n' ∉ l) : splitNl l = [l] := by
  induction l with
  | nil => rfl
  | cons c t ih =>
    have h' : '\n' ∉ t := fun hx => h (List.mem_cons_of_mem c hx)
    have hc : c ≠ '\n' := fun hx => h (hx ▸ List.mem_cons_self c t)
    rw [splitNl_cons c t hc, ih h', consHead]

/- ## Unpacking the validity predicates -/

theorem not_mem_of_contains_eq_false (v : List Char) (c : Char)
    (h : v.contains c = false) : c ∉ v := by
  intro hm
  rw [List.contains_eq_any_beq, List.any_eq_false] at h
  have hx := h c hm
  simp at hx

theorem contains_eq_false_of_not_mem (v : List Char) (c : Char) (h : c ∉ v) :
    v.contains c = false := by
  rw [List.contains_eq_any_beq, List.any_eq_false]
  intro a ha hbeq
  rw [beq_iff_eq] at hbeq
  exact h (by rw [hbeq]; exact ha)

theorem fieldOk_unpack (v : List Char) (h : fieldOk v = true) :
    v ≠ [] ∧ '\n' ∉ v ∧ '\r' ∉ v ∧ pyStripRight v = v ∧ ¬ dashesLine <:+ v := by
  unfold fieldOk at h
  simp only [Bool.and_eq_true, Bool.not_eq_true', List.isEmpty_eq_false,
    List.isSuffixOf_iff_suffix, beq_iff_eq] at h
  obtain ⟨⟨⟨⟨h1, h2⟩, h2r⟩, h3⟩, h4⟩ := h
  refine ⟨h1, not_mem_of_contains_eq_false v _ h2, not_mem_of_contains_eq_false v _ h2r,
    h3, ?_⟩
  intro hs
  rw [← @List.isSuffixOf_iff_suffix Char _ _ dashesLine v] at hs
  rw [h4] at hs
  exact Bool.false_ne_true hs

/- ## splitColonOnce -/

theorem splitColonOnce_cons (c : Char) (l : List Char)
    (h : List.take 2 (c :: l) ≠ [':', ' ']) :
    splitColonOnce (c :: l) =
      match splitColonOnce l with
      | some (k, v) => some (c :: k, v)
      | none => none := by
  rw [splitColonOnce.eq_def]
  split
  · simp_all
  · rename_i rest heq
    exact absurd (by rw [heq]; rfl) h
  · rename_i c2 r2 hne heq
    cases heq
    rfl

/-- Splitting a line `key ++ ': ' ++ value` at the first `': '` occurrence
recovers the key and the value when the key contains no colon. -/
theorem splitColonOnce_key (k v : List Char) (h : ':' ∉ k) :
    splitColonOnce (k ++ ':' :: ' ' :: v) = some (k, v) := by
  induction k with
  | nil => rfl
  | cons c k ih =>
    have hc : c ≠ ':' := fun hx => h (hx ▸ List.mem_cons_self c k)
    have h' : ':' ∉ k := fun hx => h (List.mem_cons_of_mem c hx)
    rw [List.cons_append, splitColonOnce_cons c _ ?_, ih h']
    rcases k with _ | ⟨a, t⟩
    · intro hx
      simp at hx
    · intro hx
      simp at hx
      exact hc hx.1

/-- A `some` result of `splitColonOnce` decomposes its input, so values
recovered from a stripped line never end in whitespace and are nonempty. -/
theorem splitColonOnce_some (l k v : List Char) (h : splitColonOnce l = some (k, v)) :
    l = k ++ ':' :: ' ' :: v := by
  induction l generalizing k with
  | nil => simp [splitColonOnce] at h
  | cons c rest ih =>
    by_cases hx : List.take 2 (c :: rest) = [':', ' ']
    · rcases rest with _ | ⟨a, t⟩
      · simp at hx
      · simp at hx
        obtain ⟨rfl, rfl⟩ := hx
        rw [show splitColonOnce (':' :: ' ' :: t) = some ([], t) from rfl] at h
        simp only [Option.some.injEq, Prod.mk.injEq] at h
        obtain ⟨rfl, rfl⟩ := h
        rfl
    · rw [splitColonOnce_cons c rest hx] at h
      cases hr : splitColonOnce rest with
      | none => rw [hr] at h; simp at h
      | some p =>
        obtain ⟨k2, v2⟩ := p
        rw [hr] at h
        simp only [Option.some.injEq, Prod.mk.injEq] at h
        obtain ⟨hk, rfl⟩ := h
        rw [← hk, List.cons_append, ih k2 hr]

/- ## pyStrip -/

theorem pyStripLeft_cons (c : Char) (l : List Char) (h : isPySpace c = false) :
    pyStripLeft (c :: l) = c :: l := by
  simp [pyStripLeft, List.dropWhile_cons, h]

theorem pyStripRight_append (X Y : List Char) (h : pyStripRight Y ≠ []) :
    pyStripRight (X ++ Y) = X ++ pyStripRight Y := by
  unfold pyStripRight at *
  rw [List.reverse_append, List.dropWhile_append]
  rw [if_neg ?_]
  · rw [List.reverse_append, List.reverse_reverse]
  · intro hx
    rw [List.isEmpty_iff] at hx
    exact h (by rw [hx]; rfl)

/- ## Decimal digit strings -/

theorem charVal_digitChar (d : ℕ) (h : d < 10) : charVal (digitChar d) = d := by
  interval_cases d <;> rfl

theorem digitChar_isDigit (d : ℕ) (h : d < 10) : (digitChar d).isDigit = true := by
  interval_cases d <;> decide

theorem natOfDigits_from (a : ℕ) (l : List Char) :
    l.foldl (fun x c => 10 * x + charVal c) a = a * 10 ^ l.length + natOfDigits l := by
  induction l generalizing a with
  | nil => simp [natOfDigits]
  | cons c t ih =>
    rw [List.foldl_cons, ih]
    rw [show natOfDigits (c :: t) = t.foldl (fun x c => 10 * x + charVal c) (10 * 0 + charVal c)
      from rfl]
    rw [ih]
    simp [List.length_cons, pow_succ]
    ring

theorem natOfDigits_append (A B : List Char) :
    natOfDigits (A ++ B) = natOfDigits A * 10 ^ B.length + natOfDigits B := by
  unfold natOfDigits
  rw [List.foldl_append, natOfDigits_from]
  rfl

theorem natOfDigits_single (c : Char) : natOfDigits [c] = charVal c := by
  simp [natOfDigits]

theorem natOfDigits_replicate_zero (j : ℕ) : natOfDigits (List.replicate j '0') = 0 := by
  induction j with
  | zero => rfl
  | succ n ih =>
    rw [List.replicate_succ, show natOfDigits ('0' :: List.replicate n '0') =
      (List.replicate n '0').foldl (fun x c => 10 * x + charVal c) (10 * 0 + charVal '0')
      from rfl, natOfDigits_from]
    simp [ih]
    rfl

theorem natOfDigits_padZeros (k : ℕ) (s : List Char) :
    natOfDigits (padZeros k s) = natOfDigits s := by
  unfold padZeros
  rw [natOfDigits_append, natOfDigits_replicate_zero]
  simp

theorem natToDigitsAux_spec (fuel : ℕ) : ∀ n : ℕ, n ≤ fuel →
    natOfDigits (natToDigitsAux fuel n) = n ∧
      ∀ c ∈ natToDigitsAux fuel n, c.isDigit = true := by
  induction fuel with
  | zero =>
    intro n hn
    obtain rfl : n = 0 := Nat.le_zero.mp hn
    exact ⟨rfl, by simp [natToDigitsAux]⟩
  | succ f ih =>
    intro n hn
    by_cases hz : n = 0
    · subst hz
      exact ⟨rfl, by simp [natToDigitsAux]⟩
    · have hrec : n / 10 ≤ f := by
        have := Nat.div_lt_self (Nat.pos_of_ne_zero hz) (by norm_num : 1 < 10)
        omega
      obtain ⟨ihv, ihd⟩ := ih (n / 10) hrec
      constructor
      · rw [show natToDigitsAux (f + 1) n =
          natToDigitsAux f (n / 10) ++ [digitChar (n % 10)] from by
            rw [natToDigitsAux]; simp [hz]]
        rw [natOfDigits_append, ihv, natOfDigits_single,
          charVal_digitChar _ (Nat.mod_lt _ (by norm_num))]
        simp
        omega
      · rw [show natToDigitsAux (f + 1) n =
          natToDigitsAux f (n / 10) ++ [digitChar (n % 10)] from by
            rw [natToDigitsAux]; simp [hz]]
        intro c hc
        rcases List.mem_append.mp hc with h | h
        · exact ihd c h
        · rw [List.mem_singleton.mp h]
          exact digitChar_isDigit _ (Nat.mod_lt _ (by norm_num))

theorem natOfDigits_natToDigits (n : ℕ) : natOfDigits (natToDigits n) = n := by
  unfold natToDigits
  by_cases hz : n = 0
  · simp [hz]
    rfl
  · simp only [hz, if_false]
    exact (natToDigitsAux_spec n n le_rfl).1

theorem natToDigits_all_digits (n : ℕ) : ∀ c ∈ natToDigits n, c.isDigit = true := by
  unfold natToDigits
  by_cases hz : n = 0
  · simp [hz]
  · simp only [hz, if_false]
    exact (natToDigitsAux_spec n n le_rfl).2

theorem natToDigits_ne_nil (n : ℕ) : natToDigits n ≠ [] := by
  unfold natToDigits
  by_cases hz : n = 0
  · simp [hz]
  · simp only [hz, if_false]
    cases n with
    | zero => exact absurd rfl hz
    | succ m =>
      rw [show natToDigitsAux (m + 1) (m + 1) =
        natToDigitsAux m ((m + 1) / 10) ++ [digitChar ((m + 1) % 10)] from by
          rw [natToDigitsAux]; simp]
      simp

theorem padZeros_all_digits (k : ℕ) (s : List Char) (h : ∀ c ∈ s, c.isDigit = true) :
    ∀ c ∈ padZeros k s, c.isDigit = true := by
  intro c hc
  rcases List.mem_append.mp hc with hx | hx
  · rw [List.eq_of_mem_replicate hx]
    decide
  · exact h c hx

theorem padZeros_length (k : ℕ) (s : List Char) :
    (padZeros k s).length = max k s.length := by
  simp [padZeros]
  omega

theorem tenPowExpAux_sound (fuel : ℕ) : ∀ d k0 k : ℕ,
    tenPowExpAux fuel d k0 = some k → 10 ^ k % d = 0 := by
  induction fuel with
  | zero =>
    intro d k0 k h
    unfold tenPowExpAux at h
    split at h
    · obtain rfl : k0 = k := by simpa using h
      assumption
    · simp at h
  | succ f ih =>
    intro d k0 k h
    unfold tenPowExpAux at h
    split at h
    · obtain rfl : k0 = k := by simpa using h
      assumption
    · exact ih d (k0 + 1) k h

/- ## Character class facts -/

theorem isPySpace_of_isDigit (c : Char) (h : c.isDigit = true) : isPySpace c = false := by
  by_contra hx
  rw [Bool.not_eq_false] at hx
  unfold isPySpace at hx
  simp only [Bool.or_eq_true, decide_eq_true_eq] at hx
  rcases hx with
    ((((((((((((((((((((((((((((rfl | rfl) | rfl) | rfl) | rfl) | rfl) |
    rfl) | rfl) | rfl) | rfl) | rfl) | rfl) | rfl) | rfl) | rfl) | rfl) |
    rfl) | rfl) | rfl) | rfl) | rfl) | rfl) | rfl) | rfl) | rfl) | rfl) |
    rfl) | rfl) | rfl)
    <;> exact absurd h (by decide)

theorem dropWhile_eq_self_of_head (p : Char → Bool) (l : List Char)
    (h : ∀ c ∈ l.take 1, p c = false) : l.dropWhile p = l := by
  rcases l with _ | ⟨c, t⟩
  · rfl
  · rw [List.dropWhile_cons, if_neg]
    rw [h c (by simp)]
    simp

theorem pyStrip_all_nonspace (l : List Char) (h : ∀ c ∈ l, isPySpace c = false) :
    pyStrip l = l := by
  unfold pyStrip pyStripLeft pyStripRight
  rw [dropWhile_eq_self_of_head _ _ fun c hc => h c (List.mem_of_mem_take hc),
    dropWhile_eq_self_of_head _ _ fun c hc =>
      h c (by
        have := List.mem_of_mem_take hc
        exact (List.mem_reverse).mp this),
    List.reverse_reverse]

theorem parseFloatSign_catchall (c : Char) (r : List Char) (h1 : c ≠ '-') (h2 : c ≠ '+') :
    parseFloatSign (c :: r) = (1, c :: r) := by
  rw [parseFloatSign.eq_def]
  split
  · rename_i heq
    cases heq
    exact absurd rfl h1
  · rename_i heq
    cases heq
    exact absurd rfl h2
  · rfl

/- ## parseFloatBody on rendered digit strings -/

theorem takeWhile_all (p : Char → Bool) (l : List Char) (h : ∀ c ∈ l, p c = true) :
    l.takeWhile p = l := by
  rw [← List.append_nil l, List.takeWhile_append_of_pos h]
  rfl

theorem dropWhile_all (p : Char → Bool) (l : List Char) (h : ∀ c ∈ l, p c = true) :
    l.dropWhile p = [] := by
  rw [← List.append_nil l, List.dropWhile_append_of_pos h]
  rfl

theorem parseFloatBody_digits_dot (sign : ℤ) (I F : List Char)
    (hI : ∀ c ∈ I, c.isDigit = true) (hF : ∀ c ∈ F, c.isDigit = true)
    (hne : I ≠ [] ∨ F ≠ []) :
    parseFloatBody sign (I ++ '.' :: F) =
      some (Rat.divInt (sign * (natOfDigits I * 10 ^ F.length + natOfDigits F))
        (10 ^ F.length)) := by
  have hdot : Char.isDigit '.' = false := rfl
  unfold parseFloatBody
  rw [List.dropWhile_append_of_pos hI, List.dropWhile_cons]
  simp only [hdot, Bool.false_eq_true, if_false, List.takeWhile_append_of_pos hI,
    List.takeWhile_cons, List.append_nil]
  rw [takeWhile_all _ _ hF, dropWhile_all _ _ hF]
  rw [if_pos ⟨rfl, hne⟩]

theorem parseFloatBody_renderDigits (sign : ℤ) (mn k : ℕ) :
    parseFloatBody sign (renderDigits mn k) = some (Rat.divInt (sign * mn) (10 ^ k)) := by
  unfold renderDigits
  by_cases hk : k = 0
  · subst hk
    rw [if_pos rfl]
    rw [show (['.', '0'] : List Char) = '.' :: ['0'] from rfl]
    rw [parseFloatBody_digits_dot sign (natToDigits mn) ['0'] (natToDigits_all_digits mn)
      (by intro c hc; rw [List.mem_singleton.mp hc]; decide) (Or.inl (natToDigits_ne_nil mn))]
    rw [natOfDigits_natToDigits, natOfDigits_single]
    rw [show sign * (((mn : ℤ)) * 10 ^ (['0'] : List Char).length + (charVal '0' : ℤ)) =
      (sign * mn) * 10 from by
        rw [show ((charVal '0' : ℤ)) = 0 from rfl]
        norm_num
        ring]
    rw [show ((10 : ℤ) ^ (['0'] : List Char).length) = 1 * 10 from by norm_num]
    rw [Rat.divInt_mul_right (by norm_num : (10 : ℤ) ≠ 0), pow_zero]
  · rw [if_neg hk]
    have hlen : (padZeros (k + 1) (natToDigits mn)).length = max (k + 1) (natToDigits mn).length :=
      padZeros_length _ _
    have hk1 : k + 1 ≤ (padZeros (k + 1) (natToDigits mn)).length := by rw [hlen]; omega
    have hall : ∀ c ∈ padZeros (k + 1) (natToDigits mn), c.isDigit = true :=
      padZeros_all_digits _ _ (natToDigits_all_digits mn)
    have hI : ∀ c ∈ (padZeros (k + 1) (natToDigits mn)).take
        ((padZeros (k + 1) (natToDigits mn)).length - k), c.isDigit = true :=
      fun c hc => hall c (List.mem_of_mem_take hc)
    have hF : ∀ c ∈ (padZeros (k + 1) (natToDigits mn)).drop
        ((padZeros (k + 1) (natToDigits mn)).length - k), c.isDigit = true :=
      fun c hc => hall c (List.mem_of_mem_drop hc)
    have hIne : (padZeros (k + 1) (natToDigits mn)).take
        ((padZeros (k + 1) (natToDigits mn)).length - k) ≠ [] := by
      have hlt : ((padZeros (k + 1) (natToDigits mn)).take
          ((padZeros (k + 1) (natToDigits mn)).length - k)).length =
          (padZeros (k + 1) (natToDigits mn)).length - k := by
        rw [List.length_take]
        omega
      intro hx
      rw [hx] at hlt
      simp at hlt
      omega
    rw [parseFloatBody_digits_dot sign _ _ hI hF (Or.inl hIne)]
    have hFlen : ((padZeros (k + 1) (natToDigits mn)).drop
        ((padZeros (k + 1) (natToDigits mn)).length - k)).length = k := by
      rw [List.length_drop]
      omega
    rw [hFlen]
    have hsum : natOfDigits ((padZeros (k + 1) (natToDigits mn)).take
          ((padZeros (k + 1) (natToDigits mn)).length - k)) * 10 ^ k +
        natOfDigits ((padZeros (k + 1) (natToDigits mn)).drop
          ((padZeros (k + 1) (natToDigits mn)).length - k)) = mn := by
      have hx := natOfDigits_append
        ((padZeros (k + 1) (natToDigits mn)).take
          ((padZeros (k + 1) (natToDigits mn)).length - k))
        ((padZeros (k + 1) (natToDigits mn)).drop
          ((padZeros (k + 1) (natToDigits mn)).length - k))
      rw [List.take_append_drop, hFlen] at hx
      rw [← hx, natOfDigits_padZeros, natOfDigits_natToDigits]
    have hsumZ : ((natOfDigits ((padZeros (k + 1) (natToDigits mn)).take
          ((padZeros (k + 1) (natToDigits mn)).length - k)) : ℤ) * 10 ^ k +
        (natOfDigits ((padZeros (k + 1) (natToDigits mn)).drop
          ((padZeros (k + 1) (natToDigits mn)).length - k)) : ℤ)) = (mn : ℤ) := by
      exact_mod_cast congrArg (Nat.cast : ℕ → ℤ) hsum
    rw [hsumZ]

theorem renderDigits_chars (mn k : ℕ) :
    ∀ c ∈ renderDigits mn k, c.isDigit = true ∨ c = '.' := by
  unfold renderDigits
  by_cases hk : k = 0
  · subst hk
    rw [if_pos rfl]
    intro c hc
    rcases List.mem_append.mp hc with hx | hx
    · exact Or.inl (natToDigits_all_digits mn c hx)
    · simp at hx
      rcases hx with rfl | rfl
      · exact Or.inr rfl
      · exact Or.inl (by decide)
  · rw [if_neg hk]
    intro c hc
    have hall := padZeros_all_digits (k + 1) (natToDigits mn) (natToDigits_all_digits mn)
    rcases List.mem_append.mp hc with hx | hx
    · exact Or.inl (hall c (List.mem_of_mem_take hx))
    · simp only [List.mem_cons] at hx
      rcases hx with rfl | hx
      · exact Or.inr rfl
      · exact Or.inl (hall c (List.mem_of_mem_drop hx))

theorem renderDigits_head_digit (mn k : ℕ) :
    ∃ c t, renderDigits mn k = c :: t ∧ c.isDigit = true := by
  unfold renderDigits
  by_cases hk : k = 0
  · subst hk
    rw [if_pos rfl]
    obtain ⟨c, t, hx⟩ := List.exists_cons_of_ne_nil (natToDigits_ne_nil mn)
    refine ⟨c, t ++ ['.', '0'], by rw [hx]; simp, ?_⟩
    exact natToDigits_all_digits mn c (by rw [hx]; exact List.mem_cons_self c t)
  · rw [if_neg hk]
    have hlen : (padZeros (k + 1) (natToDigits mn)).length = max (k + 1) (natToDigits mn).length :=
      padZeros_length _ _
    have hne : (padZeros (k + 1) (natToDigits mn)).take
        ((padZeros (k + 1) (natToDigits mn)).length - k) ≠ [] := by
      intro hx
      have hl := congrArg List.length hx
      rw [List.length_take] at hl
      simp at hl
      omega
    obtain ⟨c, t, hx⟩ := List.exists_cons_of_ne_nil hne
    refine ⟨c, t ++ '.' :: (padZeros (k + 1) (natToDigits mn)).drop
      ((padZeros (k + 1) (natToDigits mn)).length - k), by rw [hx]; simp, ?_⟩
    have hall := padZeros_all_digits (k + 1) (natToDigits mn) (natToDigits_all_digits mn)
    exact hall c (List.mem_of_mem_take (by rw [hx]; exact List.mem_cons_self c t))

theorem tenPowExp_dvd (d k : ℕ) (h : tenPowExp d = some k) : d ∣ 10 ^ k :=
  Nat.dvd_of_mod_eq_zero (tenPowExpAux_sound d d 0 k h)

/-- Parsing back the printed amount recovers every float-representable amount exactly. -/
theorem parseFloat_showAmount (q : ℚ) (h : amountOk q = true) :
    parseFloat (showAmount q) = some q := by
  obtain ⟨k, hk⟩ := Option.isSome_iff_exists.mp h
  have hdvd : q.den ∣ 10 ^ k := tenPowExp_dvd _ _ hk
  have hc : q.den * (10 ^ k / q.den) = 10 ^ k := Nat.mul_div_cancel' hdvd
  have hsa : showAmount q =
      (if q.num < 0 then ['-'] else []) ++ renderDigits (q.num.natAbs * (10 ^ k / q.den)) k := by
    unfold showAmount
    rw [hk]
  have hcne : (10 ^ k / q.den) ≠ 0 := by
    intro hx
    rw [hx, Nat.mul_zero] at hc
    exact pow_ne_zero k (by norm_num : (10 : ℕ) ≠ 0) hc.symm
  have hchars : ∀ c ∈ (if q.num < 0 then ['-'] else []) ++
      renderDigits (q.num.natAbs * (10 ^ k / q.den)) k, isPySpace c = false := by
    intro c hcm
    rcases List.mem_append.mp hcm with hx | hx
    · split at hx
      · rw [List.mem_singleton.mp hx]
        decide
      · simp at hx
    · rcases renderDigits_chars _ _ c hx with hd | hd
      · exact isPySpace_of_isDigit c hd
      · rw [hd]
        decide
  have hfinal : Rat.divInt ((if q.num < 0 then (-1 : ℤ) else 1) *
      (q.num.natAbs * (10 ^ k / q.den) : ℕ)) (10 ^ k) = q := by
    have hnum : ((if q.num < 0 then (-1 : ℤ) else 1) *
        (q.num.natAbs * (10 ^ k / q.den) : ℕ)) = q.num * ((10 ^ k / q.den : ℕ) : ℤ) := by
      rw [Nat.cast_mul]
      split
      · rename_i hneg
        rw [show ((q.num.natAbs : ℤ)) = -q.num from by omega]
        ring
      · rename_i hpos
        rw [show ((q.num.natAbs : ℤ)) = q.num from by omega]
        ring
    have hden : ((10 : ℤ) ^ k) = (q.den : ℤ) * ((10 ^ k / q.den : ℕ) : ℤ) := by
      exact_mod_cast hc.symm
    rw [hnum, hden, Rat.divInt_mul_right (by exact_mod_cast hcne)]
    exact Rat.divInt_self q
  unfold parseFloat
  rw [hsa, pyStrip_all_nonspace _ hchars]
  by_cases hneg : q.num < 0
  · rw [if_pos hneg]
    rw [show ((['-'] : List Char) ++ renderDigits (q.num.natAbs * (10 ^ k / q.den)) k) =
      '-' :: renderDigits (q.num.natAbs * (10 ^ k / q.den)) k from rfl]
    rw [show parseFloatSign ('-' :: renderDigits (q.num.natAbs * (10 ^ k / q.den)) k) =
      (-1, renderDigits (q.num.natAbs * (10 ^ k / q.den)) k) from rfl]
    rw [parseFloatBody_renderDigits]
    rw [show ((-1 : ℤ)) = (if q.num < 0 then (-1 : ℤ) else 1) from by rw [if_pos hneg]]
    rw [hfinal]
  · rw [if_neg hneg, List.nil_append]
    obtain ⟨c, t, hct, hcd⟩ := renderDigits_head_digit (q.num.natAbs * (10 ^ k / q.den)) k
    rw [hct, parseFloatSign_catchall c t
      (by intro hx; rw [hx] at hcd; exact absurd hcd (by decide))
      (by intro hx; rw [hx] at hcd; exact absurd hcd (by decide))]
    rw [← hct, parseFloatBody_renderDigits]
    rw [show ((1 : ℤ)) = (if q.num < 0 then (-1 : ℤ) else 1) from by rw [if_neg hneg]]
    rw [hfinal]

/- ## showAmount produces a round-trip clean field -/

theorem pyStripRight_all_nonspace (l : List Char) (h : ∀ c ∈ l, isPySpace c = false) :
    pyStripRight l = l := by
  unfold pyStripRight
  rw [dropWhile_eq_self_of_head _ _ fun c hc =>
    h c (List.mem_reverse.mp (List.mem_of_mem_take hc)), List.reverse_reverse]

theorem pyStripRight_append_spaces (X W : List Char) (h : ∀ c ∈ W, isPySpace c = true) :
    pyStripRight (X ++ W) = pyStripRight X := by
  unfold pyStripRight
  rw [List.reverse_append, List.dropWhile_append_of_pos fun c hc => h c (List.mem_reverse.mp hc)]

theorem fieldOk_intro (v : List Char) (h1 : v ≠ []) (h2 : '\n' ∉ v) (h2r : '\r' ∉ v)
    (h3 : pyStripRight v = v) (h4 : ¬ dashesLine <:+ v) : fieldOk v = true := by
  unfold fieldOk
  have hc := contains_eq_false_of_not_mem v _ h2
  have hcr := contains_eq_false_of_not_mem v _ h2r
  have hs : dashesLine.isSuffixOf v = false := by
    rw [← Bool.not_eq_true]
    intro hx
    exact h4 (List.isSuffixOf_iff_suffix.mp hx)
  simp [h1, hc, hcr, h3, hs, h2, h2r]

theorem renderDigits_last_digit (mn k : ℕ) :
    ∃ c t, renderDigits mn k = t ++ [c] ∧ c.isDigit = true := by
  unfold renderDigits
  by_cases hk : k = 0
  · subst hk
    rw [if_pos rfl]
    exact ⟨'0', natToDigits mn ++ ['.'], by simp, by decide⟩
  · rw [if_neg hk]
    have hlen : (padZeros (k + 1) (natToDigits mn)).length = max (k + 1) (natToDigits mn).length :=
      padZeros_length _ _
    have hFne : (padZeros (k + 1) (natToDigits mn)).drop
        ((padZeros (k + 1) (natToDigits mn)).length - k) ≠ [] := by
      intro hx
      have hl := congrArg List.length hx
      rw [List.length_drop] at hl
      simp at hl
      omega
    rcases List.eq_nil_or_concat ((padZeros (k + 1) (natToDigits mn)).drop
        ((padZeros (k + 1) (natToDigits mn)).length - k)) with hx | ⟨L, b, hx⟩
    · exact absurd hx hFne
    · refine ⟨b, (padZeros (k + 1) (natToDigits mn)).take
        ((padZeros (k + 1) (natToDigits mn)).length - k) ++ '.' :: L, ?_, ?_⟩
      · rw [hx]
        simp
      · have hall := padZeros_all_digits (k + 1) (natToDigits mn) (natToDigits_all_digits mn)
        refine hall b (@List.mem_of_mem_drop Char b
          ((padZeros (k + 1) (natToDigits mn)).length - k) (padZeros (k + 1) (natToDigits mn)) ?_)
        rw [hx]
        simp

/-- The amount string written by `save_records` is itself a round-trip clean
field: nonempty, newline-free, no trailing whitespace, not ending in `---`. -/
theorem showAmount_fieldOk (q : ℚ) (h : amountOk q = true) :
    fieldOk (showAmount q) = true := by
  obtain ⟨k, hk⟩ := Option.isSome_iff_exists.mp h
  have hsa : showAmount q =
      (if q.num < 0 then ['-'] else []) ++ renderDigits (q.num.natAbs * (10 ^ k / q.den)) k := by
    unfold showAmount
    rw [hk]
  obtain ⟨c, t, hct, hcd⟩ := renderDigits_last_digit (q.num.natAbs * (10 ^ k / q.den)) k
  have hchars : ∀ c2 ∈ showAmount q, c2.isDigit = true ∨ c2 = '.' ∨ c2 = '-' := by
    intro c2 hc2
    rw [hsa] at hc2
    rcases List.mem_append.mp hc2 with hx | hx
    · split at hx
      · simp at hx
        exact Or.inr (Or.inr hx)
      · simp at hx
    · rcases renderDigits_chars _ _ c2 hx with hd | hd
      · exact Or.inl hd
      · exact Or.inr (Or.inl hd)
  refine fieldOk_intro _ ?_ ?_ ?_ ?_ ?_
  · rw [hsa, hct]
    intro hx
    have := congrArg List.length hx
    simp at this
  · intro hx
    rcases hchars '\n' hx with hd | hd | hd <;> simp at hd
  · intro hx
    rcases hchars '\r' hx with hd | hd | hd <;> simp at hd
  · refine pyStripRight_all_nonspace _ fun c2 hc2 => ?_
    rcases hchars c2 hc2 with hd | hd | hd
    · exact isPySpace_of_isDigit c2 hd
    · rw [hd]; decide
    · rw [hd]; decide
  · intro hs
    obtain ⟨w, hw⟩ := hs
    -- the last character of showAmount q is a digit, but hw forces '-'
    have hlast : (showAmount q).getLast? = some c := by
      rw [hsa, hct, show (if q.num < 0 then ['-'] else []) ++ (t ++ [c]) =
        ((if q.num < 0 then ['-'] else []) ++ t) ++ [c] from by simp]
      exact List.getLast?_concat _
    have hlast2 : (showAmount q).getLast? = some '-' := by
      rw [← hw, show w ++ dashesLine = (w ++ ['-', '-']) ++ ['-'] from by
        simp [show dashesLine = ['-', '-', '-'] from rfl]]
      exact List.getLast?_concat _
    rw [hlast] at hlast2
    have : c = '-' := by simpa using hlast2
    rw [this] at hcd
    exact absurd hcd (by decide)

/- ## Processing one line of a block -/

theorem pyStripLeft_key (key rest : List Char)
    (hkey : key = keyDate ∨ key = keyCategory ∨ key = keyAmount ∨ key = keyDescription) :
    pyStripLeft (key ++ rest) = key ++ rest := by
  refine dropWhile_eq_self_of_head _ _ ?_
  intro c hc
  rcases hkey with rfl | rfl | rfl | rfl
  · rw [show (keyDate ++ rest).take 1 = ['Д'] from rfl] at hc
    rw [List.mem_singleton.mp hc]
    decide
  · rw [show (keyCategory ++ rest).take 1 = ['К'] from rfl] at hc
    rw [List.mem_singleton.mp hc]
    decide
  · rw [show (keyAmount ++ rest).take 1 = ['С'] from rfl] at hc
    rw [List.mem_singleton.mp hc]
    decide
  · rw [show (keyDescription ++ rest).take 1 = ['О'] from rfl] at hc
    rw [List.mem_singleton.mp hc]
    decide

theorem no_nl_kv (key v : List Char)
    (hkey : key = keyDate ∨ key = keyCategory ∨ key = keyAmount ∨ key = keyDescription)
    (hv : '\n' ∉ v) : '\n' ∉ (key ++ ':' :: ' ' :: v) := by
  intro hx
  rcases List.mem_append.mp hx with hk | hk
  · rcases hkey with rfl | rfl | rfl | rfl <;> revert hk <;> decide
  · rcases List.mem_cons.mp hk with hk2 | hk2
    · exact absurd hk2 (by decide)
    · rcases List.mem_cons.mp hk2 with hk3 | hk3
      · exact absurd hk3 (by decide)
      · exact hv hk3

theorem kvLine_key_value (dict : List (List Char × List Char)) (key v : List Char)
    (hkey : key = keyDate ∨ key = keyCategory ∨ key = keyAmount ∨ key = keyDescription)
    (hvR : pyStripRight v = v) (hvne : v ≠ []) :
    kvLine dict (key ++ ':' :: ' ' :: v) = (key, v) :: dict := by
  have hcolon : ':' ∉ key := by
    rcases hkey with rfl | rfl | rfl | rfl <;> decide
  have hstrip : pyStrip (key ++ ':' :: ' ' :: v) = key ++ ':' :: ' ' :: v := by
    unfold pyStrip
    rw [pyStripLeft_key _ _ hkey]
    rw [show key ++ ':' :: ' ' :: v = (key ++ [':', ' ']) ++ v from by simp]
    rw [pyStripRight_append _ _ (by rw [hvR]; exact hvne), hvR]
  have hne_dash : ¬(key ++ ':' :: ' ' :: v = dashesLine) := by
    intro hx
    have h1 := congrArg (List.take 1) hx
    rcases hkey with rfl | rfl | rfl | rfl
    · rw [show (keyDate ++ ':' :: ' ' :: v).take 1 = ['Д'] from rfl,
        show dashesLine.take 1 = ['-'] from rfl] at h1
      exact absurd h1 (by decide)
    · rw [show (keyCategory ++ ':' :: ' ' :: v).take 1 = ['К'] from rfl,
        show dashesLine.take 1 = ['-'] from rfl] at h1
      exact absurd h1 (by decide)
    · rw [show (keyAmount ++ ':' :: ' ' :: v).take 1 = ['С'] from rfl,
        show dashesLine.take 1 = ['-'] from rfl] at h1
      exact absurd h1 (by decide)
    · rw [show (keyDescription ++ ':' :: ' ' :: v).take 1 = ['О'] from rfl,
        show dashesLine.take 1 = ['-'] from rfl] at h1
      exact absurd h1 (by decide)
  unfold kvLine
  rw [hstrip]
  rw [if_neg ?_]
  · rw [splitColonOnce_key _ _ hcolon]
  · push_neg
    refine ⟨hne_dash, ?_⟩
    rcases hkey with rfl | rfl | rfl | rfl <;> simp

theorem kvLine_empty_value (dict : List (List Char × List Char)) (key : List Char)
    (hkey : key = keyDate ∨ key = keyCategory ∨ key = keyAmount ∨ key = keyDescription) :
    kvLine dict (key ++ [':', ' ']) = dict := by
  rcases hkey with rfl | rfl | rfl | rfl <;> rfl

theorem kvLine_dashes (dict : List (List Char × List Char)) :
    kvLine dict dashesLine = dict := rfl

theorem kvLine_colon_only (dict : List (List Char × List Char)) :
    kvLine dict (keyDescription ++ [':']) = dict := rfl

/- ## Lookup in the accumulated dictionary -/

theorem lookupKey_cons (k2 v : List Char) (dict : List (List Char × List Char)) (k : List Char) :
    lookupKey ((k2, v) :: dict) k = if k2 = k then some v else lookupKey dict k := rfl

theorem lookupKey_ifpart_ne (key2 v : List Char) (ok : Bool)
    (dict : List (List Char × List Char)) (k : List Char) (h : key2 ≠ k) :
    lookupKey ((if ok then [(key2, v)] else []) ++ dict) k = lookupKey dict k := by
  cases ok
  · rfl
  · rw [if_pos rfl, List.cons_append, List.nil_append, lookupKey_cons, if_neg h]

theorem lookupKey_ifpart_eq (key v : List Char) (ok : Bool)
    (dict : List (List Char × List Char)) :
    lookupKey ((if ok then [(key, v)] else []) ++ dict) key =
      if ok then some v else lookupKey dict key := by
  cases ok
  · rfl
  · rw [if_pos rfl, if_pos rfl, List.cons_append, List.nil_append, lookupKey_cons, if_pos rfl]

theorem kvLine_field (dict : List (List Char × List Char)) (key v : List Char)
    (hkey : key = keyDate ∨ key = keyCategory ∨ key = keyAmount ∨ key = keyDescription)
    (h : fieldOkOrEmpty v = true) :
    kvLine dict (key ++ ':' :: ' ' :: v) = (if fieldOk v then [(key, v)] else []) ++ dict := by
  by_cases hv : fieldOk v = true
  · obtain ⟨hne, hnl, hnr, hR, hd⟩ := fieldOk_unpack v hv
    rw [kvLine_key_value dict key v hkey hR hne, hv, if_pos rfl]
    rfl
  · have hve : v = [] := by
      unfold fieldOkOrEmpty at h
      rcases Bool.or_eq_true_iff.mp h with hx | hx
      · exact absurd hx hv
      · exact List.isEmpty_iff.mp hx
    subst hve
    rw [show (key ++ ':' :: ' ' :: ([] : List Char)) = key ++ [':', ' '] from rfl]
    rw [kvLine_empty_value dict key hkey]
    rw [if_neg hv]
    rfl

/- ## Block lines under the splitters -/

theorem not_dashes_suffix_kv (k v : List Char) (hv : ¬ dashesLine <:+ v) :
    ¬ dashesLine <:+ (k ++ ':' :: ' ' :: v) := by
  rw [← List.reverse_prefix] at hv ⊢
  rw [show (k ++ ':' :: ' ' :: v).reverse = v.reverse ++ [' ', ':'] ++ k.reverse from by simp]
  intro hp
  obtain ⟨t, ht⟩ := hp
  rw [show dashesLine.reverse = ['-', '-', '-'] from rfl] at ht
  rcases hw : v.reverse with _ | ⟨a, _ | ⟨b, _ | ⟨c, w⟩⟩⟩ <;> rw [hw] at ht
  · simp at ht
  · simp at ht
  · simp at ht
  · apply hv
    rw [show dashesLine.reverse = ['-', '-', '-'] from rfl, hw]
    simp at ht
    obtain ⟨rfl, rfl, rfl, -⟩ := ht
    exact ⟨w, rfl⟩

theorem splitNl_serializeLine (key v rest : List Char)
    (hkey : key = keyDate ∨ key = keyCategory ∨ key = keyAmount ∨ key = keyDescription)
    (hv : '\n' ∉ v) :
    splitNl (serializeLine key v ++ rest) = (key ++ ':' :: ' ' :: v) :: splitNl rest := by
  rw [show serializeLine key v ++ rest = (key ++ ':' :: ' ' :: v) ++ '\n' :: rest from by
    simp [serializeLine]]
  exact splitNl_line _ _ (no_nl_kv key v hkey hv)

theorem splitDashes_serializeLine (key v rest : List Char)
    (hkey : key = keyDate ∨ key = keyCategory ∨ key = keyAmount ∨ key = keyDescription)
    (hvnl : '\n' ∉ v) (hvd : ¬ dashesLine <:+ v) :
    splitDashes (serializeLine key v ++ rest) =
      prependHead (serializeLine key v) (splitDashes rest) := by
  rw [show serializeLine key v ++ rest = (key ++ ':' :: ' ' :: v) ++ '\n' :: rest from by
    simp [serializeLine]]
  rw [splitDashes_line _ _ (no_nl_kv key v hkey hvnl) (not_dashes_suffix_kv key v hvd)]
  rfl

/- ## Field fact extraction -/

theorem fieldOkOrEmpty_nl (v : List Char) (h : fieldOkOrEmpty v = true) : '\n' ∉ v := by
  rcases Bool.or_eq_true_iff.mp h with hx | hx
  · exact (fieldOk_unpack v hx).2.1
  · rw [List.isEmpty_iff.mp hx]
    simp

theorem fieldOkOrEmpty_nodash (v : List Char) (h : fieldOkOrEmpty v = true) :
    ¬ dashesLine <:+ v := by
  rcases Bool.or_eq_true_iff.mp h with hx | hx
  · exact (fieldOk_unpack v hx).2.2.2.2
  · rw [List.isEmpty_iff.mp hx]
    intro hs
    have := hs.length_le
    simp [show dashesLine = ['-', '-', '-'] from rfl] at this

theorem recordOkOrEmpty_unpack (r : FinanceRecord) (h : recordOkOrEmpty r = true) :
    fieldOkOrEmpty r.date = true ∧ fieldOkOrEmpty r.category = true ∧
      fieldOkOrEmpty r.description = true ∧ amountOk r.amount = true := by
  unfold recordOkOrEmpty at h
  simp only [Bool.and_eq_true] at h
  exact ⟨h.1.1.1, h.1.1.2, h.1.2, h.2⟩

theorem recordOk_amount (r : FinanceRecord) (h : amountOk r.amount = true) :
    recordOk r = (fieldOk r.date && fieldOk r.category && fieldOk r.description) := by
  unfold recordOk
  rw [h, Bool.and_true]

/- ## Building a record from the canonical dictionary -/

theorem buildRecord_canonical (r : FinanceRecord) (ha : amountOk r.amount = true) :
    buildRecord ((if fieldOk r.description then [(keyDescription, r.description)] else []) ++
      ((keyAmount, showAmount r.amount) ::
        ((if fieldOk r.category then [(keyCategory, r.category)] else []) ++
          ((if fieldOk r.date then [(keyDate, r.date)] else []) ++ [])))) =
      if recordOk r then some r else none := by
  rw [recordOk_amount r ha]
  unfold buildRecord
  cases hdo : fieldOk r.date <;> cases hco : fieldOk r.category <;>
    cases hso : fieldOk r.description <;>
    simp [hdo, hco, hso, lookupKey,
      show keyDescription ≠ keyDate from by decide,
      show keyAmount ≠ keyDate from by decide,
      show keyCategory ≠ keyDate from by decide,
      show keyDescription ≠ keyCategory from by decide,
      show keyAmount ≠ keyCategory from by decide,
      show keyDescription ≠ keyAmount from by decide,
      show keyDate ≠ keyCategory from by decide,
      show keyDate ≠ keyAmount from by decide,
      show keyDate ≠ keyDescription from by decide,
      show keyCategory ≠ keyAmount from by decide,
      show keyCategory ≠ keyDescription from by decide,
      show keyAmount ≠ keyDescription from by decide,
      parseFloat_showAmount r.amount ha]

/- ## Parsing one serialized block entry -/

theorem parseEntry_block (r : FinanceRecord) (h : recordOkOrEmpty r = true) :
    parseEntry (innerOf r ++ dashesLine) = if recordOk r then some r else none := by
  obtain ⟨hd, hc2, hdesc, ha⟩ := recordOkOrEmpty_unpack r h
  have hsfOk : fieldOk (showAmount r.amount) = true := showAmount_fieldOk _ ha
  obtain ⟨hsne, hsnl, hsnr, hsR, hsd⟩ := fieldOk_unpack _ hsfOk
  have hstrip : pyStrip (innerOf r ++ dashesLine) = innerOf r ++ dashesLine := by
    unfold pyStrip
    rw [show pyStripLeft (innerOf r ++ dashesLine) = innerOf r ++ dashesLine from
      dropWhile_eq_self_of_head _ _ (by
        intro c hcx
        rw [show (innerOf r ++ dashesLine).take 1 = ['Д'] from rfl] at hcx
        rw [List.mem_singleton.mp hcx]
        decide)]
    rw [pyStripRight_append _ _ (by decide : pyStripRight dashesLine ≠ [])]
    rw [show pyStripRight dashesLine = dashesLine from rfl]
  have hlines : splitNl (innerOf r ++ dashesLine) =
      [keyDate ++ ':' :: ' ' :: r.date, keyCategory ++ ':' :: ' ' :: r.category,
        keyAmount ++ ':' :: ' ' :: showAmount r.amount,
        keyDescription ++ ':' :: ' ' :: r.description, dashesLine] := by
    rw [show innerOf r ++ dashesLine = serializeLine keyDate r.date ++
      (serializeLine keyCategory r.category ++ (serializeLine keyAmount (showAmount r.amount) ++
        (serializeLine keyDescription r.description ++ dashesLine))) from by simp [innerOf]]
    rw [splitNl_serializeLine _ _ _ (Or.inl rfl) (fieldOkOrEmpty_nl _ hd)]
    rw [splitNl_serializeLine _ _ _ (Or.inr (Or.inl rfl)) (fieldOkOrEmpty_nl _ hc2)]
    rw [splitNl_serializeLine _ _ _ (Or.inr (Or.inr (Or.inl rfl))) hsnl]
    rw [splitNl_serializeLine _ _ _ (Or.inr (Or.inr (Or.inr rfl))) (fieldOkOrEmpty_nl _ hdesc)]
    rw [show splitNl dashesLine = [dashesLine] from rfl]
  have hdict : entryDict (innerOf r ++ dashesLine) =
      (if fieldOk r.description then [(keyDescription, r.description)] else []) ++
        ((keyAmount, showAmount r.amount) ::
          ((if fieldOk r.category then [(keyCategory, r.category)] else []) ++
            ((if fieldOk r.date then [(keyDate, r.date)] else []) ++ []))) := by
    unfold entryDict
    rw [hstrip, hlines]
    simp only [List.foldl_cons, List.foldl_nil]
    rw [kvLine_field _ _ _ (Or.inl rfl) hd]
    rw [kvLine_field _ _ _ (Or.inr (Or.inl rfl)) hc2]
    rw [kvLine_key_value _ _ _ (Or.inr (Or.inr (Or.inl rfl))) hsR hsne]
    rw [kvLine_field _ _ _ (Or.inr (Or.inr (Or.inr rfl))) hdesc]
    rw [kvLine_dashes]
  unfold parseEntry
  rw [hstrip, if_neg (by
    intro hx
    have h1 := congrArg (List.take 1) hx
    rw [show (innerOf r ++ dashesLine).take 1 = ['Д'] from rfl] at h1
    simp at h1)]
  rw [hdict]
  exact buildRecord_canonical r ha

theorem parseEntry_inner (r : FinanceRecord) (h : recordOkOrEmpty r = true) :
    parseEntry (innerOf r) = if recordOk r then some r else none := by
  obtain ⟨hd, hc2, hdesc, ha⟩ := recordOkOrEmpty_unpack r h
  have hsfOk : fieldOk (showAmount r.amount) = true := showAmount_fieldOk _ ha
  obtain ⟨hsne, hsnl, hsnr, hsR, hsd⟩ := fieldOk_unpack _ hsfOk
  have hleft : pyStripLeft (innerOf r) = innerOf r :=
    dropWhile_eq_self_of_head _ _ (by
      intro c hcx
      rw [show (innerOf r).take 1 = ['Д'] from rfl] at hcx
      rw [List.mem_singleton.mp hcx]
      decide)
  have hgroup : innerOf r =
      (serializeLine keyDate r.date ++ serializeLine keyCategory r.category ++
        serializeLine keyAmount (showAmount r.amount)) ++
        serializeLine keyDescription r.description := by
    simp [innerOf]
  rcases Bool.or_eq_true_iff.mp hdesc with hok | hempty
  · -- description is a round-trip clean field
    obtain ⟨hdne, hdnl, hdnr, hdR, hdd⟩ := fieldOk_unpack _ hok
    have hlast : pyStripRight (serializeLine keyDescription r.description) =
        keyDescription ++ ':' :: ' ' :: r.description := by
      rw [show serializeLine keyDescription r.description =
        ((keyDescription ++ [':', ' ']) ++ r.description) ++ ['\n'] from by simp [serializeLine]]
      rw [pyStripRight_append_spaces _ _ (by
        intro c hcx
        rw [List.mem_singleton.mp hcx]
        rfl)]
      rw [pyStripRight_append _ _ (by rw [hdR]; exact hdne), hdR]
      simp
    have hstrip : pyStrip (innerOf r) =
        serializeLine keyDate r.date ++ (serializeLine keyCategory r.category ++
          (serializeLine keyAmount (showAmount r.amount) ++
            (keyDescription ++ ':' :: ' ' :: r.description))) := by
      unfold pyStrip
      rw [hleft, hgroup, pyStripRight_append _ _ (by rw [hlast]; simp), hlast]
      simp
    have hlines : splitNl (pyStrip (innerOf r)) =
        [keyDate ++ ':' :: ' ' :: r.date, keyCategory ++ ':' :: ' ' :: r.category,
          keyAmount ++ ':' :: ' ' :: showAmount r.amount,
          keyDescription ++ ':' :: ' ' :: r.description] := by
      rw [hstrip]
      rw [splitNl_serializeLine _ _ _ (Or.inl rfl) (fieldOkOrEmpty_nl _ hd)]
      rw [splitNl_serializeLine _ _ _ (Or.inr (Or.inl rfl)) (fieldOkOrEmpty_nl _ hc2)]
      rw [splitNl_serializeLine _ _ _ (Or.inr (Or.inr (Or.inl rfl))) hsnl]
      rw [splitNl_nosep _ (no_nl_kv keyDescription r.description (Or.inr (Or.inr (Or.inr rfl)))
        hdnl)]
    have hdict : entryDict (innerOf r) =
        (if fieldOk r.description then [(keyDescription, r.description)] else []) ++
          ((keyAmount, showAmount r.amount) ::
            ((if fieldOk r.category then [(keyCategory, r.category)] else []) ++
              ((if fieldOk r.date then [(keyDate, r.date)] else []) ++ []))) := by
      unfold entryDict
      rw [hlines]
      simp only [List.foldl_cons, List.foldl_nil]
      rw [kvLine_field _ _ _ (Or.inl rfl) hd]
      rw [kvLine_field _ _ _ (Or.inr (Or.inl rfl)) hc2]
      rw [kvLine_key_value _ _ _ (Or.inr (Or.inr (Or.inl rfl))) hsR hsne]
      rw [kvLine_field _ _ _ (Or.inr (Or.inr (Or.inr rfl))) hdesc]
    unfold parseEntry
    rw [if_neg (by
      rw [hstrip]
      intro hx
      have h1 := congrArg (List.take 1) hx
      rw [show (serializeLine keyDate r.date ++ (serializeLine keyCategory r.category ++
        (serializeLine keyAmount (showAmount r.amount) ++
          (keyDescription ++ ':' :: ' ' :: r.description)))).take 1 = ['Д'] from rfl] at h1
      simp at h1)]
    rw [hdict]
    exact buildRecord_canonical r ha
  · -- description is the empty string
    have hde : r.description = [] := List.isEmpty_iff.mp hempty
    have hlast : pyStripRight (serializeLine keyDescription r.description) =
        keyDescription ++ [':'] := by
      rw [hde]
      rfl
    have hstrip : pyStrip (innerOf r) =
        serializeLine keyDate r.date ++ (serializeLine keyCategory r.category ++
          (serializeLine keyAmount (showAmount r.amount) ++ (keyDescription ++ [':']))) := by
      unfold pyStrip
      rw [hleft, hgroup, pyStripRight_append _ _ (by rw [hlast]; simp), hlast]
      simp
    have hlines : splitNl (pyStrip (innerOf r)) =
        [keyDate ++ ':' :: ' ' :: r.date, keyCategory ++ ':' :: ' ' :: r.category,
          keyAmount ++ ':' :: ' ' :: showAmount r.amount, keyDescription ++ [':']] := by
      rw [hstrip]
      rw [splitNl_serializeLine _ _ _ (Or.inl rfl) (fieldOkOrEmpty_nl _ hd)]
      rw [splitNl_serializeLine _ _ _ (Or.inr (Or.inl rfl)) (fieldOkOrEmpty_nl _ hc2)]
      rw [splitNl_serializeLine _ _ _ (Or.inr (Or.inr (Or.inl rfl))) hsnl]
      rw [splitNl_nosep _ (by decide)]
    have hdict : entryDict (innerOf r) =
        (if fieldOk r.description then [(keyDescription, r.description)] else []) ++
          ((keyAmount, showAmount r.amount) ::
            ((if fieldOk r.category then [(keyCategory, r.category)] else []) ++
              ((if fieldOk r.date then [(keyDate, r.date)] else []) ++ []))) := by
      unfold entryDict
      rw [hlines]
      simp only [List.foldl_cons, List.foldl_nil]
      rw [kvLine_field _ _ _ (Or.inl rfl) hd]
      rw [kvLine_field _ _ _ (Or.inr (Or.inl rfl)) hc2]
      rw [kvLine_key_value _ _ _ (Or.inr (Or.inr (Or.inl rfl))) hsR hsne]
      rw [kvLine_colon_only]
      rw [hde]
      rw [if_neg (by decide : ¬ fieldOk ([] : List Char) = true)]
      rfl
    unfold parseEntry
    rw [if_neg (by
      rw [hstrip]
      intro hx
      have h1 := congrArg (List.take 1) hx
      rw [show (serializeLine keyDate r.date ++ (serializeLine keyCategory r.category ++
        (serializeLine keyAmount (showAmount r.amount) ++
          (keyDescription ++ [':'])))).take 1 = ['Д'] from rfl] at h1
      simp at h1)]
    rw [hdict]
    exact buildRecord_canonical r ha

/- ## Serialized content under the splitters -/

theorem foldl_append_serialize (l : List FinanceRecord) (a : List Char) :
    l.foldl (fun acc r => acc ++ serializeRecord r) a = a ++ (l.map serializeRecord).flatten := by
  induction l generalizing a with
  | nil => simp
  | cons x xs ih => simp [ih, List.append_assoc]

theorem serializeRecords_eq_join (rs : List FinanceRecord) :
    serializeRecords rs = (rs.map serializeRecord).flatten := by
  unfold serializeRecords
  rw [foldl_append_serialize]
  rfl

theorem record_line_facts (r : FinanceRecord) (h : recordOkOrEmpty r = true) :
    ('\n' ∉ r.date ∧ ¬ dashesLine <:+ r.date) ∧
      ('\n' ∉ r.category ∧ ¬ dashesLine <:+ r.category) ∧
      ('\n' ∉ showAmount r.amount ∧ ¬ dashesLine <:+ showAmount r.amount) ∧
      ('\n' ∉ r.description ∧ ¬ dashesLine <:+ r.description) := by
  obtain ⟨hd, hc2, hdesc, ha⟩ := recordOkOrEmpty_unpack r h
  obtain ⟨-, hsnl, -, -, hsd⟩ := fieldOk_unpack _ (showAmount_fieldOk _ ha)
  exact ⟨⟨fieldOkOrEmpty_nl _ hd, fieldOkOrEmpty_nodash _ hd⟩,
    ⟨fieldOkOrEmpty_nl _ hc2, fieldOkOrEmpty_nodash _ hc2⟩, ⟨hsnl, hsd⟩,
    ⟨fieldOkOrEmpty_nl _ hdesc, fieldOkOrEmpty_nodash _ hdesc⟩⟩

theorem splitDashes_block (r : FinanceRecord) (rest : List Char)
    (h : recordOkOrEmpty r = true) :
    splitDashes (serializeRecord r ++ rest) = innerOf r :: splitDashes rest := by
  obtain ⟨⟨hd1, hd2⟩, ⟨hc1, hc22⟩, ⟨ha1, ha2⟩, ⟨hs1, hs2⟩⟩ := record_line_facts r h
  rw [show serializeRecord r ++ rest = serializeLine keyDate r.date ++
    (serializeLine keyCategory r.category ++ (serializeLine keyAmount (showAmount r.amount) ++
      (serializeLine keyDescription r.description ++ (dashesLine ++ '\n' :: rest)))) from by
    simp [serializeRecord]]
  rw [splitDashes_serializeLine _ _ _ (Or.inl rfl) hd1 hd2]
  rw [splitDashes_serializeLine _ _ _ (Or.inr (Or.inl rfl)) hc1 hc22]
  rw [splitDashes_serializeLine _ _ _ (Or.inr (Or.inr (Or.inl rfl))) ha1 ha2]
  rw [splitDashes_serializeLine _ _ _ (Or.inr (Or.inr (Or.inr rfl))) hs1 hs2]
  rw [show dashesLine ++ '\n' :: rest = '-' :: '-' :: '-' :: '\n' :: rest from rfl]
  rw [splitDashes_sep]
  simp [prependHead, innerOf]

theorem splitDashes_final (r : FinanceRecord) (h : recordOkOrEmpty r = true) :
    splitDashes (innerOf r ++ dashesLine) = [innerOf r ++ dashesLine] := by
  obtain ⟨⟨hd1, hd2⟩, ⟨hc1, hc22⟩, ⟨ha1, ha2⟩, ⟨hs1, hs2⟩⟩ := record_line_facts r h
  rw [show innerOf r ++ dashesLine = serializeLine keyDate r.date ++
    (serializeLine keyCategory r.category ++ (serializeLine keyAmount (showAmount r.amount) ++
      (serializeLine keyDescription r.description ++ dashesLine))) from by simp [innerOf]]
  rw [splitDashes_serializeLine _ _ _ (Or.inl rfl) hd1 hd2]
  rw [splitDashes_serializeLine _ _ _ (Or.inr (Or.inl rfl)) hc1 hc22]
  rw [splitDashes_serializeLine _ _ _ (Or.inr (Or.inr (Or.inl rfl))) ha1 ha2]
  rw [splitDashes_serializeLine _ _ _ (Or.inr (Or.inr (Or.inr rfl))) hs1 hs2]
  rw [show splitDashes dashesLine = [dashesLine] from rfl]
  simp [prependHead, innerOf]

theorem splitDashes_blocks (rs : List FinanceRecord) (tail : List Char)
    (h : ∀ r ∈ rs, recordOkOrEmpty r = true) :
    splitDashes ((rs.map serializeRecord).flatten ++ tail) =
      rs.map innerOf ++ splitDashes tail := by
  induction rs with
  | nil => simp
  | cons x xs ih =>
    rw [List.map_cons, List.flatten, List.append_assoc]
    rw [splitDashes_block x _ (h x (List.mem_cons_self x xs))]
    rw [ih fun r hr => h r (List.mem_cons_of_mem x hr)]
    rfl

/- ## The save/load round trip -/

theorem pyStripLeft_block (r : FinanceRecord) (X : List Char) :
    pyStripLeft (serializeRecord r ++ X) = serializeRecord r ++ X := by
  refine dropWhile_eq_self_of_head _ _ ?_
  intro c hcx
  rw [show (serializeRecord r ++ X).take 1 = ['Д'] from rfl] at hcx
  rw [List.mem_singleton.mp hcx]
  decide

theorem pyStripRight_inner_dashes (r : FinanceRecord) :
    pyStripRight (innerOf r ++ dashesLine) = innerOf r ++ dashesLine := by
  rw [pyStripRight_append _ _ (by decide : pyStripRight dashesLine ≠ [])]
  rw [show pyStripRight dashesLine = dashesLine from rfl]

theorem filterMap_parseEntry_inners (rs : List FinanceRecord)
    (h : ∀ r ∈ rs, recordOkOrEmpty r = true) :
    (rs.map innerOf).filterMap parseEntry = rs.filter recordOk := by
  induction rs with
  | nil => rfl
  | cons x xs ih =>
    rw [List.map_cons, List.filterMap_cons, parseEntry_inner x (h x (List.mem_cons_self x xs))]
    rw [ih fun r hr => h r (List.mem_cons_of_mem x hr)]
    by_cases hx : recordOk x = true
    · rw [if_pos hx, List.filter_cons, if_pos hx]
    · rw [if_neg hx, List.filter_cons, if_neg hx]

/-- Parsing the file written by `save_records` yields exactly the records
whose fields are round-trip clean, in order; records with an empty string
field are dropped, all others come back unchanged. -/
theorem parse_serializeRecords (rs : List FinanceRecord)
    (h : ∀ r ∈ rs, recordOkOrEmpty r = true) :
    parse_records (serializeRecords rs) = rs.filter recordOk := by
  rcases List.eq_nil_or_concat rs with rfl | ⟨rs2, last, rfl⟩
  · rfl
  · rw [show rs2.concat last = rs2 ++ [last] from List.concat_eq_append rs2 last] at h ⊢
    have hlast : recordOkOrEmpty last = true := h last (by simp)
    have h2 : ∀ r ∈ rs2, recordOkOrEmpty r = true := fun r hr => h r (by simp [hr])
    have hstrip : pyStrip (serializeRecords (rs2 ++ [last])) =
        (rs2.map serializeRecord).flatten ++ (innerOf last ++ dashesLine) := by
      rw [serializeRecords_eq_join, List.map_append, List.map_cons, List.map_nil,
        List.flatten_append]
      rw [show ([serializeRecord last] : List (List Char)).flatten = serializeRecord last from
        by simp]
      unfold pyStrip
      have hleft : pyStripLeft ((rs2.map serializeRecord).flatten ++ serializeRecord last) =
          (rs2.map serializeRecord).flatten ++ serializeRecord last := by
        rcases rs2 with _ | ⟨r0, rest⟩
        · rw [List.map_nil, show (([] : List (List Char))).flatten = [] from rfl,
            List.nil_append, ← List.append_nil (serializeRecord last)]
          exact pyStripLeft_block last []
        · rw [List.map_cons, List.flatten_cons, List.append_assoc]
          exact pyStripLeft_block r0 _
      rw [hleft]
      rw [show (rs2.map serializeRecord).flatten ++ serializeRecord last =
        ((rs2.map serializeRecord).flatten ++ (innerOf last ++ dashesLine)) ++ ['\n'] from by
          simp [serializeRecord, innerOf]]
      rw [pyStripRight_append_spaces _ _ (by
        intro c hcx
        rw [List.mem_singleton.mp hcx]
        rfl)]
      rw [pyStripRight_append _ _ (by
        rw [pyStripRight_inner_dashes]
        intro hx
        have h1 := congrArg (List.take 1) hx
        rw [show (innerOf last ++ dashesLine).take 1 = ['Д'] from rfl] at h1
        simp at h1)]
      rw [pyStripRight_inner_dashes]
    unfold parse_records
    rw [hstrip, splitDashes_blocks rs2 _ h2, splitDashes_final last hlast]
    rw [foldl_append_filterMap, List.nil_append, List.filterMap_append]
    rw [filterMap_parseEntry_inners rs2 h2]
    rw [List.filterMap_cons, List.filterMap_nil, parseEntry_block last hlast]
    rw [List.filter_append]
    by_cases hx : recordOk last = true
    · rw [if_pos hx, List.filter_cons, if_pos hx, List.filter_nil]
    · rw [if_neg hx, List.filter_cons, if_neg hx, List.filter_nil]

theorem recordOk_orEmpty (r : FinanceRecord) (h : recordOk r = true) :
    recordOkOrEmpty r = true := by
  unfold recordOk at h
  simp only [Bool.and_eq_true] at h
  unfold recordOkOrEmpty fieldOkOrEmpty
  rw [h.1.1.1, h.1.1.2, h.1.2, h.2]
  rfl

/-- The clean round trip: a list of records with round-trip clean fields is
reproduced exactly by parsing the saved file. -/
theorem parse_serializeRecords_clean (rs : List FinanceRecord)
    (h : ∀ r ∈ rs, recordOk r = true) :
    parse_records (serializeRecords rs) = rs := by
  rw [parse_serializeRecords rs fun r hr => recordOk_orEmpty r (h r hr)]
  exact List.filter_eq_self.mpr h

/- ## Idempotence of stripping -/

theorem dropWhile_idem (p : Char → Bool) (l : List Char) :
    (l.dropWhile p).dropWhile p = l.dropWhile p := by
  induction l with
  | nil => rfl
  | cons c t ih =>
    rw [List.dropWhile_cons]
    by_cases hc : p c = true
    · rw [if_pos hc]
      exact ih
    · rw [if_neg hc, List.dropWhile_cons, if_neg hc]

theorem pyStripLeft_idem (l : List Char) : pyStripLeft (pyStripLeft l) = pyStripLeft l :=
  dropWhile_idem isPySpace l

theorem pyStripRight_idem (l : List Char) : pyStripRight (pyStripRight l) = pyStripRight l := by
  unfold pyStripRight
  rw [List.reverse_reverse, dropWhile_idem]

theorem pyStripRight_front (l : List Char) : pyStripRight l <+: l := by
  have h := List.dropWhile_suffix (l := l.reverse) isPySpace
  have h2 := List.reverse_prefix.mpr h
  rw [List.reverse_reverse] at h2
  exact h2

theorem pyStripLeft_of_stripLeft_fixed (x : List Char) (hx : pyStripLeft x = x) :
    pyStripLeft (pyStripRight x) = pyStripRight x := by
  rcases hr : pyStripRight x with _ | ⟨c, w⟩
  · rfl
  · have hpre : pyStripRight x <+: x := pyStripRight_front x
    rw [hr] at hpre
    obtain ⟨t, ht⟩ := hpre
    rw [← ht] at hx
    rw [List.cons_append] at hx
    have hc : isPySpace c = false := by
      by_contra hcc
      rw [Bool.not_eq_false] at hcc
      unfold pyStripLeft at hx
      rw [List.dropWhile_cons, if_pos hcc] at hx
      have hlen := congrArg List.length hx
      have hle := (List.dropWhile_sublist (l := w ++ t) isPySpace).length_le
      simp [List.length_append] at hlen hle
      omega
    exact pyStripLeft_cons c w hc

theorem pyStrip_idem (l : List Char) : pyStrip (pyStrip l) = pyStrip l := by
  unfold pyStrip
  rw [pyStripLeft_of_stripLeft_fixed _ (pyStripLeft_idem l), pyStripRight_idem]

theorem parse_records_pyStrip (c : List Char) :
    parse_records (pyStrip c) = parse_records c := by
  unfold parse_records
  rw [pyStrip_idem]

theorem universalNewlines_cons (c : Char) (l : List Char) (h : c ≠ '\r') :
    universalNewlines (c :: l) = c :: universalNewlines l := by
  rw [universalNewlines.eq_def]
  split
  · simp_all
  · rename_i rest heq
    cases heq
    exact absurd rfl h
  · rename_i rest hne heq
    cases heq
    exact absurd rfl h
  · rename_i c2 r2 hne1 hne2 heq
    cases heq
    rfl

theorem universalNewlines_id (l : List Char) (h : '\r' ∉ l) : universalNewlines l = l := by
  induction l with
  | nil => rfl
  | cons c t ih =>
    have hc : c ≠ '\r' := fun hx => h (hx ▸ List.mem_cons_self c t)
    rw [universalNewlines_cons c t hc, ih fun hx => h (List.mem_cons_of_mem c hx)]

theorem no_cr_serializeLine (k v : List Char) (hk : '\r' ∉ k) (hv : '\r' ∉ v) :
    '\r' ∉ serializeLine k v := by
  intro hx
  unfold serializeLine at hx
  rcases List.mem_append.mp hx with hm | hm
  · rcases List.mem_append.mp hm with hm1 | hm2
    · exact hk hm1
    · rcases List.mem_cons.mp hm2 with h1 | hm3
      · exact absurd h1 (by decide)
      · rcases List.mem_cons.mp hm3 with h1 | hm4
        · exact absurd h1 (by decide)
        · exact hv hm4
  · exact absurd (List.mem_singleton.mp hm) (by decide)

theorem no_cr_serializeRecord (r : FinanceRecord) (h : recordOk r = true) :
    '\r' ∉ serializeRecord r := by
  unfold recordOk at h
  simp only [Bool.and_eq_true] at h
  have hd := (fieldOk_unpack _ h.1.1.1).2.2.1
  have hc := (fieldOk_unpack _ h.1.1.2).2.2.1
  have hs := (fieldOk_unpack _ h.1.2).2.2.1
  have ha := (fieldOk_unpack _ (showAmount_fieldOk _ h.2)).2.2.1
  intro hx
  unfold serializeRecord at hx
  rcases List.mem_append.mp hx with hm | hm
  · rcases List.mem_append.mp hm with hm | hm
    · rcases List.mem_append.mp hm with hm | hm
      · rcases List.mem_append.mp hm with hm | hm
        · rcases List.mem_append.mp hm with hm | hm
          · exact no_cr_serializeLine _ _ (by decide) hd hm
          · exact no_cr_serializeLine _ _ (by decide) hc hm
        · exact no_cr_serializeLine _ _ (by decide) ha hm
      · exact no_cr_serializeLine _ _ (by decide) hs hm
    · exact absurd hm (by decide)
  · exact absurd (List.mem_singleton.mp hm) (by decide)

theorem no_cr_serializeRecords (rs : List FinanceRecord)
    (h : ∀ r ∈ rs, recordOk r = true) : '\r' ∉ serializeRecords rs := by
  rw [serializeRecords_eq_join]
  intro hx
  rw [List.mem_flatten] at hx
  obtain ⟨l, hl, hcl⟩ := hx
  rw [List.mem_map] at hl
  obtain ⟨r, hr, rfl⟩ := hl
  exact no_cr_serializeRecord r (h r hr) hcl

theorem load_records_some (c : List Char) (h : '\r' ∉ c) :
    load_records (some c) = parse_records c := by
  show parse_records (pyStrip (universalNewlines c)) = parse_records c
  rw [universalNewlines_id c h]
  exact parse_records_pyStrip c

/- ## Parsing a single hand-written block -/

theorem not_dashes_suffix_ws (v w : List Char) (hv : ¬ dashesLine <:+ v)
    (hw : ∀ x ∈ w, isPySpace x = true) : ¬ dashesLine <:+ (v ++ w) := by
  rcases List.eq_nil_or_concat w with rfl | ⟨L, b, rfl⟩
  · rw [List.append_nil]
    exact hv
  · intro hs
    obtain ⟨t, ht⟩ := hs
    have h1 : (t ++ dashesLine).getLast? = some '-' := by
      rw [show t ++ dashesLine = (t ++ ['-', '-']) ++ ['-'] from by
        simp [show dashesLine = ['-', '-', '-'] from rfl]]
      exact List.getLast?_concat _
    have h2 : (v ++ L.concat b).getLast? = some b := by
      rw [show v ++ L.concat b = (v ++ L) ++ [b] from by simp [List.concat_eq_append]]
      exact List.getLast?_concat _
    rw [ht, h2] at h1
    have hb : b = '-' := by simpa using h1
    have := hw b (by simp [List.concat_eq_append])
    rw [hb] at this
    exact absurd this (by decide)

theorem kvLine_ws (dict : List (List Char × List Char)) (key v w : List Char)
    (hkey : key = keyDate ∨ key = keyCategory ∨ key = keyAmount ∨ key = keyDescription)
    (hw : ∀ x ∈ w, isPySpace x = true) :
    kvLine dict (key ++ ':' :: ' ' :: (v ++ w)) = kvLine dict (key ++ ':' :: ' ' :: v) := by
  unfold kvLine
  rw [show pyStrip (key ++ ':' :: ' ' :: (v ++ w)) = pyStrip (key ++ ':' :: ' ' :: v) from by
    unfold pyStrip
    rw [pyStripLeft_key _ _ hkey, pyStripLeft_key _ _ hkey]
    rw [show key ++ ':' :: ' ' :: (v ++ w) = (key ++ ':' :: ' ' :: v) ++ w from by simp]
    exact pyStripRight_append_spaces _ _ hw]

theorem parse_single_block (d c a ds : List Char)
    (hd1 : '\n' ∉ d) (hd2 : ¬ dashesLine <:+ d)
    (hc1 : '\n' ∉ c) (hc2 : ¬ dashesLine <:+ c)
    (ha1 : '\n' ∉ a) (ha2 : ¬ dashesLine <:+ a)
    (hs1 : '\n' ∉ ds) (hs2 : ¬ dashesLine <:+ ds) :
    parse_records (mkBlock d c a ds) =
      match buildRecord (List.foldl kvLine []
        [keyDate ++ ':' :: ' ' :: d, keyCategory ++ ':' :: ' ' :: c,
          keyAmount ++ ':' :: ' ' :: a, keyDescription ++ ':' :: ' ' :: ds, dashesLine]) with
      | some r => [r]
      | none => [] := by
  have hstrip : pyStrip (mkBlock d c a ds) = mkLines d c a ds ++ dashesLine := by
    unfold pyStrip
    rw [show pyStripLeft (mkBlock d c a ds) = mkBlock d c a ds from
      dropWhile_eq_self_of_head _ _ (by
        intro x hcx
        rw [show (mkBlock d c a ds).take 1 = ['Д'] from rfl] at hcx
        rw [List.mem_singleton.mp hcx]
        decide)]
    rw [show mkBlock d c a ds = (mkLines d c a ds ++ dashesLine) ++ ['\n'] from by
      simp [mkBlock]]
    rw [pyStripRight_append_spaces _ _ (by
      intro x hcx
      rw [List.mem_singleton.mp hcx]
      rfl)]
    rw [pyStripRight_append _ _ (by decide : pyStripRight dashesLine ≠ [])]
    rw [show pyStripRight dashesLine = dashesLine from rfl]
  have hentries : splitDashes (mkLines d c a ds ++ dashesLine) =
      [mkLines d c a ds ++ dashesLine] := by
    rw [show mkLines d c a ds ++ dashesLine = serializeLine keyDate d ++
      (serializeLine keyCategory c ++ (serializeLine keyAmount a ++
        (serializeLine keyDescription ds ++ dashesLine))) from by simp [mkLines]]
    rw [splitDashes_serializeLine _ _ _ (Or.inl rfl) hd1 hd2]
    rw [splitDashes_serializeLine _ _ _ (Or.inr (Or.inl rfl)) hc1 hc2]
    rw [splitDashes_serializeLine _ _ _ (Or.inr (Or.inr (Or.inl rfl))) ha1 ha2]
    rw [splitDashes_serializeLine _ _ _ (Or.inr (Or.inr (Or.inr rfl))) hs1 hs2]
    rw [show splitDashes dashesLine = [dashesLine] from rfl]
    simp [prependHead, mkLines]
  have hinnerstrip : pyStrip (mkLines d c a ds ++ dashesLine) =
      mkLines d c a ds ++ dashesLine := by
    unfold pyStrip
    rw [show pyStripLeft (mkLines d c a ds ++ dashesLine) = mkLines d c a ds ++ dashesLine from
      dropWhile_eq_self_of_head _ _ (by
        intro x hcx
        rw [show (mkLines d c a ds ++ dashesLine).take 1 = ['Д'] from rfl] at hcx
        rw [List.mem_singleton.mp hcx]
        decide)]
    rw [pyStripRight_append _ _ (by decide : pyStripRight dashesLine ≠ [])]
    rw [show pyStripRight dashesLine = dashesLine from rfl]
  have hlines : splitNl (mkLines d c a ds ++ dashesLine) =
      [keyDate ++ ':' :: ' ' :: d, keyCategory ++ ':' :: ' ' :: c,
        keyAmount ++ ':' :: ' ' :: a, keyDescription ++ ':' :: ' ' :: ds, dashesLine] := by
    rw [show mkLines d c a ds ++ dashesLine = serializeLine keyDate d ++
      (serializeLine keyCategory c ++ (serializeLine keyAmount a ++
        (serializeLine keyDescription ds ++ dashesLine))) from by simp [mkLines]]
    rw [splitNl_serializeLine _ _ _ (Or.inl rfl) hd1]
    rw [splitNl_serializeLine _ _ _ (Or.inr (Or.inl rfl)) hc1]
    rw [splitNl_serializeLine _ _ _ (Or.inr (Or.inr (Or.inl rfl))) ha1]
    rw [splitNl_serializeLine _ _ _ (Or.inr (Or.inr (Or.inr rfl))) hs1]
    rw [show splitNl dashesLine = [dashesLine] from rfl]
  unfold parse_records
  rw [hstrip, hentries, foldl_append_filterMap, List.nil_append, List.filterMap_cons,
    List.filterMap_nil]
  rw [show parseEntry (mkLines d c a ds ++ dashesLine) = buildRecord (List.foldl kvLine []
    [keyDate ++ ':' :: ' ' :: d, keyCategory ++ ':' :: ' ' :: c,
      keyAmount ++ ':' :: ' ' :: a, keyDescription ++ ':' :: ' ' :: ds, dashesLine]) from by
    unfold parseEntry
    rw [hinnerstrip]
    rw [if_neg (by
      intro hx
      have h1 := congrArg (List.take 1) hx
      rw [show (mkLines d c a ds ++ dashesLine).take 1 = ['Д'] from rfl] at h1
      simp at h1)]
    unfold entryDict
    rw [hinnerstrip, hlines]]
  cases buildRecord (List.foldl kvLine []
      [keyDate ++ ':' :: ' ' :: d, keyCategory ++ ':' :: ' ' :: c,
        keyAmount ++ ':' :: ' ' :: a, keyDescription ++ ':' :: ' ' :: ds, dashesLine]) with
  | none => rfl
  | some r => rfl

/- ## Claim theorems: round trip, add, tolerance, whitespace, empty fields -/

/-- C2 (amended): for every sequence of records whose string fields are
nonempty, free of newlines and carriage returns, without trailing
whitespace (in Python's Unicode sense) and not ending in `---`, and whose
amounts are float values, parsing the output of save reproduces the
sequence exactly, in order and in every field value (amounts exactly,
since the decimal rendering is parsed back to the same rational). -/
theorem roundtrip_parse_save (rs : List FinanceRecord) (h : ∀ r ∈ rs, recordOk r = true) :
    parse_records (serializeRecords rs) = rs ∧
      load_records (some (serializeRecords rs)) = rs := by
  have hx := parse_serializeRecords_clean rs h
  exact ⟨hx, by rw [load_records_some _ (no_cr_serializeRecords rs h)]; exact hx⟩

/-- Witness for C2 at a concrete two-record list with a fractional amount. -/
theorem roundtrip_parse_save_witness :
    parse_records (serializeRecords
      [⟨("2024-01-01").data, incomeCategory, 100, ("Зарплата").data⟩,
        ⟨("2024-01-02").data, expenseCategory, Rat.divInt 361 2, ("Хлеб").data⟩]) =
      [⟨("2024-01-01").data, incomeCategory, 100, ("Зарплата").data⟩,
        ⟨("2024-01-02").data, expenseCategory, Rat.divInt 361 2, ("Хлеб").data⟩] :=
  (roundtrip_parse_save _ (by decide)).1

/-- Counterexample to C2 as stated: a record with an empty description (a
valid record per the spec, which demands only a numeric amount) does not
survive the round trip — parsing the saved file yields no record at all. -/
theorem roundtrip_fails_on_empty_field :
    parse_records (serializeRecords [⟨("2024-01-01").data, incomeCategory, 100, []⟩]) = [] ∧
      ([] : List FinanceRecord) ≠ [⟨("2024-01-01").data, incomeCategory, 100, []⟩] :=
  ⟨by decide, by decide⟩

/-- C3 (amended): `add_record` appends the record at the end of the
in-memory sequence and saves the file unconditionally; when every stored
record (the new one included) is round-trip clean, reloading a fresh store
from the same file yields the same sequence with the new record as its last
element. -/
theorem add_record_spec (m : FinanceManager) (r : FinanceRecord)
    (h : ∀ r2 ∈ m.records ++ [r], recordOk r2 = true) :
    (add_record m r).records = m.records ++ [r] ∧
      (add_record m r).file = some (serializeRecords (m.records ++ [r])) ∧
      load_records (add_record m r).file = m.records ++ [r] ∧
      (load_records (add_record m r).file).getLast? = some r := by
  have hload : load_records (add_record m r).file = m.records ++ [r] := by
    rw [show (add_record m r).file = some (serializeRecords (m.records ++ [r])) from rfl]
    rw [load_records_some _ (no_cr_serializeRecords _ h)]
    exact parse_serializeRecords_clean _ h
  refine ⟨rfl, rfl, hload, ?_⟩
  rw [hload]
  exact List.getLast?_concat _

/-- Witness for C3: adding a record to an empty store and reloading. -/
theorem add_record_spec_witness :
    (add_record ⟨[], none⟩ ⟨("2024-01-01").data, incomeCategory, 100, ("з").data⟩).records =
        [] ++ [⟨("2024-01-01").data, incomeCategory, 100, ("з").data⟩] ∧
      (add_record ⟨[], none⟩ ⟨("2024-01-01").data, incomeCategory, 100, ("з").data⟩).file =
        some (serializeRecords
          ([] ++ [⟨("2024-01-01").data, incomeCategory, 100, ("з").data⟩])) ∧
      load_records (add_record ⟨[], none⟩
          ⟨("2024-01-01").data, incomeCategory, 100, ("з").data⟩).file =
        [] ++ [⟨("2024-01-01").data, incomeCategory, 100, ("з").data⟩] ∧
      (load_records (add_record ⟨[], none⟩
          ⟨("2024-01-01").data, incomeCategory, 100, ("з").data⟩).file).getLast? =
        some ⟨("2024-01-01").data, incomeCategory, 100, ("з").data⟩ :=
  add_record_spec ⟨[], none⟩ ⟨("2024-01-01").data, incomeCategory, 100, ("з").data⟩ (by decide)

/-- Counterexample to C3 as stated: after adding a record with an empty
description, the record is appended in memory and the file is saved, but a
fresh store loaded from the same file is empty — the added record is not
its last element. -/
theorem add_reload_drops_empty_field :
    (add_record ⟨[], none⟩ ⟨("2024-01-01").data, incomeCategory, 100, []⟩).records =
        [⟨("2024-01-01").data, incomeCategory, 100, []⟩] ∧
      load_records (add_record ⟨[], none⟩
        ⟨("2024-01-01").data, incomeCategory, 100, []⟩).file = [] :=
  ⟨by decide, by decide⟩

/-- C7: parsing never aborts — the result is the independent combination of
the per-entry outcomes (`filterMap`), so a malformed block is discarded
while every other block still contributes; concretely, a well-formed block
followed by a block missing its description yields exactly one record, a
block with a non-numeric amount is dropped while the next block is parsed,
and a line without the `': '` separator is skipped while its block's other
lines still form a record. -/
theorem parse_records_tolerant :
    (∀ content : List Char, parse_records content =
      (splitDashes (pyStrip content)).filterMap parseEntry) ∧
    parse_records (("Дата: 2024-01-01\nКатегория: Доход\nСумма: 100.0\nОписание: Зарплата\n---\nДата: 2024-01-02\nКатегория: Расход\nСумма: 5.0\n---\n").data) =
      [⟨("2024-01-01").data, ("Доход").data, 100, ("Зарплата").data⟩] ∧
    parse_records (("Дата: 2024-01-01\nКатегория: Доход\nСумма: abc\nОписание: x\n---\nДата: 2024-01-02\nКатегория: Расход\nСумма: 5.0\nОписание: y\n---\n").data) =
      [⟨("2024-01-02").data, ("Расход").data, 5, ("y").data⟩] ∧
    parse_records (("мусор\nДата: 2024-01-03\nКатегория: Доход\nСумма: 7.0\nОписание: z\n---\n").data) =
      [⟨("2024-01-03").data, ("Доход").data, 7, ("z").data⟩] := by
  refine ⟨?_, by decide, by decide, by decide⟩
  intro content
  unfold parse_records
  rw [foldl_append_filterMap, List.nil_append]

/-- Counterexample to C9 as stated: extra whitespace after the `': '`
separator is preserved in the parsed value — the two lines differ only in
leading whitespace around the value, yet the parsed date fields differ. -/
theorem leading_whitespace_significant :
    parse_records (("Дата:  x\nКатегория: c\nСумма: 1\nОписание: d\n---\n").data) =
        [⟨(" x").data, ("c").data, 1, ("d").data⟩] ∧
      parse_records (("Дата: x\nКатегория: c\nСумма: 1\nОписание: d\n---\n").data) =
        [⟨("x").data, ("c").data, 1, ("d").data⟩] ∧
      ((" x").data : List Char) ≠ ("x").data :=
  ⟨by decide, by decide, by decide⟩

/-- C9 (amended): trailing whitespace after a value is insignificant —
appending newline-free whitespace to each value of a block leaves the parse
result unchanged (values whose line survives are right-stripped either way).
Leading whitespace after the separator, by contrast, is kept (see the
counterexample). -/
theorem trailing_whitespace_insignificant (d c a ds w1 w2 w3 w4 : List Char)
    (hw1 : ∀ x ∈ w1, isPySpace x = true ∧ x ≠ '\n')
    (hw2 : ∀ x ∈ w2, isPySpace x = true ∧ x ≠ '\n')
    (hw3 : ∀ x ∈ w3, isPySpace x = true ∧ x ≠ '\n')
    (hw4 : ∀ x ∈ w4, isPySpace x = true ∧ x ≠ '\n')
    (hd1 : '\n' ∉ d) (hd2 : ¬ dashesLine <:+ d)
    (hc1 : '\n' ∉ c) (hc2 : ¬ dashesLine <:+ c)
    (ha1 : '\n' ∉ a) (ha2 : ¬ dashesLine <:+ a)
    (hs1 : '\n' ∉ ds) (hs2 : ¬ dashesLine <:+ ds) :
    parse_records (mkBlock (d ++ w1) (c ++ w2) (a ++ w3) (ds ++ w4)) =
      parse_records (mkBlock d c a ds) := by
  have hnl : ∀ (v w : List Char), '\n' ∉ v → (∀ x ∈ w, isPySpace x = true ∧ x ≠ '\n') →
      '\n' ∉ (v ++ w) := by
    intro v w hv hw hx
    rcases List.mem_append.mp hx with hm | hm
    · exact hv hm
    · exact (hw '\n' hm).2 rfl
  rw [parse_single_block (d ++ w1) (c ++ w2) (a ++ w3) (ds ++ w4)
    (hnl d w1 hd1 hw1) (not_dashes_suffix_ws d w1 hd2 fun x hx => (hw1 x hx).1)
    (hnl c w2 hc1 hw2) (not_dashes_suffix_ws c w2 hc2 fun x hx => (hw2 x hx).1)
    (hnl a w3 ha1 hw3) (not_dashes_suffix_ws a w3 ha2 fun x hx => (hw3 x hx).1)
    (hnl ds w4 hs1 hw4) (not_dashes_suffix_ws ds w4 hs2 fun x hx => (hw4 x hx).1)]
  rw [parse_single_block d c a ds hd1 hd2 hc1 hc2 ha1 ha2 hs1 hs2]
  simp only [List.foldl_cons, List.foldl_nil]
  rw [kvLine_ws _ keyDate d w1 (Or.inl rfl) fun x hx => (hw1 x hx).1]
  rw [kvLine_ws _ keyCategory c w2 (Or.inr (Or.inl rfl)) fun x hx => (hw2 x hx).1]
  rw [kvLine_ws _ keyAmount a w3 (Or.inr (Or.inr (Or.inl rfl))) fun x hx => (hw3 x hx).1]
  rw [kvLine_ws _ keyDescription ds w4 (Or.inr (Or.inr (Or.inr rfl))) fun x hx => (hw4 x hx).1]

/-- Witness for C9's amended claim at a concrete block. -/
theorem trailing_whitespace_insignificant_witness :
    parse_records (mkBlock (("2024-01-01").data ++ [' ']) (("Доход").data ++ [' ', ' '])
        (("7.0").data ++ ['\t']) (("еда").data ++ [' '])) =
      parse_records (mkBlock (("2024-01-01").data) (("Доход").data) (("7.0").data)
        (("еда").data)) :=
  trailing_whitespace_insignificant _ _ _ _ _ _ _ _
    (by decide) (by decide) (by decide) (by decide) (by decide) (by decide) (by decide)
    (by decide) (by decide) (by decide) (by decide) (by decide)

theorem recordOk_of_empty_field (r : FinanceRecord) (h : hasEmptyField r = true) :
    recordOk r = false := by
  unfold hasEmptyField at h
  unfold recordOk
  rcases Bool.or_eq_true_iff.mp h with h12 | h3
  · rcases Bool.or_eq_true_iff.mp h12 with h1 | h2
    · rw [List.isEmpty_iff.mp h1]
      rfl
    · rw [List.isEmpty_iff.mp h2]
      rw [show fieldOk [] = false from rfl]
      simp
  · rw [List.isEmpty_iff.mp h3]
    rw [show fieldOk [] = false from rfl]
    simp

/-- C10: a record one of whose string fields is the empty string does not
survive a save/load round trip: its `Key: ` line strips to `Key:`, the
separator is gone, the key is missing and the whole block is discarded, so
the record is absent from the parse of the saved file. -/
theorem empty_field_never_survives (rs : List FinanceRecord) (r : FinanceRecord)
    (h : ∀ r2 ∈ rs, recordOkOrEmpty r2 = true) (hmem : r ∈ rs)
    (hempty : hasEmptyField r = true) :
    r ∉ parse_records (serializeRecords rs) := by
  rw [parse_serializeRecords rs h]
  intro hx
  have hok := List.of_mem_filter hx
  rw [recordOk_of_empty_field r hempty] at hok
  exact Bool.false_ne_true hok

/-- Witness for C10: a stored pair of records, one with an empty
description, which is indeed absent after the round trip. -/
theorem empty_field_never_survives_witness :
    ⟨("2024-01-01").data, incomeCategory, 100, []⟩ ∉ parse_records (serializeRecords
      [⟨("2024-01-01").data, incomeCategory, 100, []⟩,
        ⟨("2024-01-02").data, expenseCategory, 40, ("хлеб").data⟩]) :=
  empty_field_never_survives _ _ (by decide) (by decide) (by decide)
